import Mathlib

/-!
# Verification of the LibrePhotos duplicate-detection core

A shallow embedding, in Lean 4, of the duplicate-detection engine of the
librephotos backend:

* `api/perceptual_hash.py` — fingerprint parsing and `hamming_distance`;
* `api/duplicate_detection.py` — the `BKTree` metric index, the union-find
  cluster builder inside `find_duplicate_groups`, the batch-job candidate
  pools, and the `resolve`/`dismiss` group operations;
* `api/models/duplicate_group.py` — `DuplicateGroup.auto_select_preferred`;
* `api/views/duplicates.py` — the view-level guards and the sensitivity
  parameter parsing of `DetectDuplicatesView`.

Python dictionaries become association lists (preserving insertion order),
Django querysets become filters over explicit record lists, mutation becomes
explicit state passing, and the recursive union-find becomes a fuel-indexed
function (the fuel is shown sufficient from the invariants).  Exceptions are
modelled with `Except`.
-/

namespace LibrePhotos

/-! ## Perceptual hashes and `hamming_distance`

`api/perceptual_hash.py` represents a fingerprint as a hex string and
delegates parsing and bit-level comparison to the external `imagehash`
library.  The parser is modelled from the spec's hashing-collaborator
contract: a fingerprint is a nonempty string of hex digits denoting a
fixed-length bit string (4 bits per digit); anything else fails to parse,
and two parsed fingerprints have a defined bit-wise distance only when
their bit lengths agree. -/

/-- Numeric value of a hex digit, `none` for any other character. -/
def hexDigitVal? (c : Char) : Option Nat :=
  if '0' ≤ c ∧ c ≤ '9' then some (c.toNat - '0'.toNat)
  else if 'a' ≤ c ∧ c ≤ 'f' then some (c.toNat - 'a'.toNat + 10)
  else if 'A' ≤ c ∧ c ≤ 'F' then some (c.toNat - 'A'.toNat + 10)
  else none

/-- The four bits of one hex digit, most significant first. -/
def hexDigitBits? (c : Char) : Option (List Bool) :=
  (hexDigitVal? c).map (fun n => [n.testBit 3, n.testBit 2, n.testBit 1, n.testBit 0])

/-- Modelled from the spec: the external `imagehash.hex_to_hash` used by
`hamming_distance` (the library itself is not part of the repository).  Per
the §4.1 and §6 contracts a fingerprint is a fixed-bit-length hex string;
parsing fails on an empty string or any non-hex character. -/
def hex_to_hash (s : String) : Option (List Bool) :=
  if s.data = [] then none
  else (s.data.mapM hexDigitBits?).map List.flatten

/-- Number of differing bit positions of two equal-length bit strings. -/
def bitDiffCount (a b : List Bool) : Nat :=
  (a.zip b).countP (fun p => p.1 != p.2)

/-- Embeds `hamming_distance` (api/perceptual_hash.py, lines 63-80): parse
both hex strings and count differing bits; any failure — a malformed
fingerprint or a bit-length mismatch — is caught and replaced by the
maximal distance 64.  The Python function never raises (the bare
`except` swallows every error), which the total return type reflects. -/
def hamming_distance (h1 h2 : String) : Nat :=
  match hex_to_hash h1, hex_to_hash h2 with
  | some b1, some b2 => if b1.length = b2.length then bitDiffCount b1 b2 else 64
  | _, _ => 64

/-- `DEFAULT_HAMMING_THRESHOLD` (api/perceptual_hash.py, line 20). -/
def DEFAULT_HAMMING_THRESHOLD : Nat := 10

/-! ## The BK-tree (`class BKTree`, api/duplicate_detection.py, lines 24-89)

A tree node is `{"id": ..., "hash": ..., "children": {}}`; the children
dictionary, keyed by integer distance, becomes an association list in
insertion order (Python dictionaries preserve insertion order, appending a
new key at the end).  The class is generic in its `distance_func`, so the
embedding is generic in `d : β → β → Nat`.  The tree itself is the optional
root (`self.root = None` initially); the `size` counter of the class is
bookkeeping only and is omitted. -/

/-- A BK-tree node: item id, item hash, children keyed by distance. -/
inductive BKNode (α β : Type) where
  | mk (idv : α) (hashv : β) (children : List (Nat × BKNode α β))

/-- The tree of `class BKTree`: the optional root node. -/
def BKTree (α β : Type) : Type := Option (BKNode α β)

mutual
/-- The descent loop of `BKTree.add` (lines 49-56): compute the distance to
the current node; descend into the child with exactly that key if present,
otherwise attach the new item as a leaf keyed at that distance. -/
def BKNode.insert {α β : Type} (d : β → β → Nat) (i : α) (h : β) :
    BKNode α β → BKNode α β
  | .mk ni nh cs => .mk ni nh (BKNode.insertChildren d i h (d h nh) cs)

/-- Update the children dictionary: recurse into the entry keyed `dist` when
it exists, otherwise append a fresh leaf at the end (dictionary insertion
order). -/
def BKNode.insertChildren {α β : Type} (d : β → β → Nat) (i : α) (h : β) (dist : Nat) :
    List (Nat × BKNode α β) → List (Nat × BKNode α β)
  | [] => [(dist, .mk i h [])]
  | (k, c) :: rest =>
    if k = dist then (k, BKNode.insert d i h c) :: rest
    else (k, c) :: BKNode.insertChildren d i h dist rest
end

/-- `BKTree.add` (lines 42-56): the first item becomes the root, later items
descend from the root. -/
def BKTree.add {α β : Type} (d : β → β → Nat) (i : α) (h : β) :
    BKTree α β → BKTree α β
  | none => some (.mk i h [])
  | some r => some (r.insert d i h)

/-- A tree built by inserting `items` in list order into an empty tree, as
the loop in `find_duplicate_groups` does. -/
def BKTree.ofList {α β : Type} (d : β → β → Nat) (items : List (α × β)) : BKTree α β :=
  items.foldl (fun t e => BKTree.add d e.1 e.2 t) none

mutual
/-- Number of nodes of a subtree (at least one). -/
def BKNode.size {α β : Type} : BKNode α β → Nat
  | .mk _ _ cs => 1 + BKNode.sizeChildren cs

/-- Total number of nodes of a children list. -/
def BKNode.sizeChildren {α β : Type} : List (Nat × BKNode α β) → Nat
  | [] => 0
  | (_, c) :: rest => BKNode.size c + BKNode.sizeChildren rest
end

mutual
/-- All `(id, hash)` items stored in a subtree. -/
def BKNode.entries {α β : Type} : BKNode α β → List (α × β)
  | .mk i h cs => (i, h) :: BKNode.entriesChildren cs

/-- All `(id, hash)` items stored under a children list. -/
def BKNode.entriesChildren {α β : Type} : List (Nat × BKNode α β) → List (α × β)
  | [] => []
  | (_, c) :: rest => c.entries ++ BKNode.entriesChildren rest
end

/-- The children kept by the pruning test of `BKTree.search` (lines 82-87):
exactly those whose key lies in `[max 0 (dist - t), dist + t]`. -/
def BKNode.childrenInRange {α β : Type} (lo hi : Nat) :
    List (Nat × BKNode α β) → List (BKNode α β)
  | [] => []
  | (k, c) :: rest =>
    if lo ≤ k ∧ k ≤ hi then c :: BKNode.childrenInRange lo hi rest
    else BKNode.childrenInRange lo hi rest

/-- The `while candidates:` loop of `BKTree.search` (lines 68-87), with the
pending-node list made explicit.  Each iteration takes one pending node,
records it as a match when its distance to the query is within the
threshold, and adds the children that survive the triangle-inequality
pruning.  (Python pops from one end of `candidates` and appends matches;
which end is taken only permutes the traversal, so the pending list is
consumed from the head here.)  The loop runs at most once per tree node;
`fuel` bounds the iterations and is instantiated with the tree size, which
is shown sufficient in `searchGo_eq_searchRec`. -/
def BKNode.searchGo {α β : Type} (d : β → β → Nat) (q : β) (t : Nat) :
    Nat → List (BKNode α β) → List (α × Nat) → List (α × Nat)
  | _, [], acc => acc
  | 0, _ :: _, acc => acc
  | fuel + 1, .mk i h cs :: rest, acc =>
    let dist := d q h
    let acc' := if dist ≤ t then (i, dist) :: acc else acc
    BKNode.searchGo d q t fuel (BKNode.childrenInRange (max 0 (dist - t)) (dist + t) cs ++ rest) acc'

/-- `BKTree.search` (lines 58-89): empty tree answers `[]`; otherwise run
the traversal loop from the root. -/
def BKTree.search {α β : Type} (d : β → β → Nat) (q : β) (t : Nat) :
    BKTree α β → List (α × Nat)
  | none => []
  | some r => BKNode.searchGo d q t r.size [r] []

/-- The brute-force linear scan the spec compares `range_query` against:
distance to every inserted item, keeping those within the threshold. -/
def linearScan {α β : Type} (d : β → β → Nat) (q : β) (t : Nat)
    (items : List (α × β)) : List (α × Nat) :=
  items.filterMap (fun e => if d q e.2 ≤ t then some (e.1, d q e.2) else none)

/-! ### Correctness of the BK-tree range query

`BKNode.searchRec` is the same traversal as the `while` loop of
`BKTree.search`, written as a structural recursion; `searchGo_spec` shows
the loop visits exactly the same nodes.  `BKNode.WF` is the BK-tree shape
invariant maintained by `add`: every item stored under a child keyed `k`
lies at distance exactly `k` from the parent's hash. -/

mutual
/-- Recursive form of the `BKTree.search` traversal. -/
def BKNode.searchRec {α β : Type} (d : β → β → Nat) (q : β) (t : Nat) :
    BKNode α β → List (α × Nat)
  | .mk i h cs =>
    (if d q h ≤ t then [(i, d q h)] else []) ++ BKNode.searchRecChildren d q t (d q h) cs

/-- Recursive traversal of a children list, pruning exactly as the loop. -/
def BKNode.searchRecChildren {α β : Type} (d : β → β → Nat) (q : β) (t : Nat) (dist : Nat) :
    List (Nat × BKNode α β) → List (α × Nat)
  | [] => []
  | (k, c) :: rest =>
    (if max 0 (dist - t) ≤ k ∧ k ≤ dist + t then BKNode.searchRec d q t c else [])
      ++ BKNode.searchRecChildren d q t dist rest
end

mutual
/-- BK-tree invariant: each child subtree keyed `k` stores only items whose
distance to this node's hash is exactly `k`. -/
def BKNode.WF {α β : Type} (d : β → β → Nat) : BKNode α β → Prop
  | .mk _ h cs => BKNode.WFChildren d h cs

/-- Children-list form of the invariant, relative to the parent hash. -/
def BKNode.WFChildren {α β : Type} (d : β → β → Nat) (ph : β) :
    List (Nat × BKNode α β) → Prop
  | [] => True
  | (k, c) :: rest =>
    (∀ e ∈ c.entries, d e.2 ph = k) ∧ BKNode.WF d c ∧ BKNode.WFChildren d ph rest
end

/-- Invariant of the optional root. -/
def BKTree.WFT {α β : Type} (d : β → β → Nat) : BKTree α β → Prop
  | none => True
  | some r => r.WF d

/-- Items of the optional root. -/
def BKTree.entriesT {α β : Type} : BKTree α β → List (α × β)
  | none => []
  | some r => r.entries

mutual
theorem BKNode.mem_entries_insert {α β : Type} (d : β → β → Nat) (i : α) (h : β)
    (n : BKNode α β) (p : α × β) :
    p ∈ (n.insert d i h).entries ↔ p ∈ n.entries ∨ p = (i, h) := by
  cases n with
  | mk ni nh cs =>
    simp only [BKNode.insert, BKNode.entries, List.mem_cons,
      BKNode.mem_entriesChildren_insertChildren d i h (d h nh) cs p]
    tauto

theorem BKNode.mem_entriesChildren_insertChildren {α β : Type} (d : β → β → Nat)
    (i : α) (h : β) (dist : Nat) (cs : List (Nat × BKNode α β)) (p : α × β) :
    p ∈ BKNode.entriesChildren (BKNode.insertChildren d i h dist cs) ↔
      p ∈ BKNode.entriesChildren cs ∨ p = (i, h) := by
  cases cs with
  | nil =>
    simp [BKNode.insertChildren, BKNode.entriesChildren, BKNode.entries]
  | cons kc rest =>
    obtain ⟨k, c⟩ := kc
    by_cases hk : k = dist
    · simp only [BKNode.insertChildren, if_pos hk, BKNode.entriesChildren, List.mem_append,
        BKNode.mem_entries_insert d i h c p]
      tauto
    · simp only [BKNode.insertChildren, if_neg hk, BKNode.entriesChildren, List.mem_append,
        BKNode.mem_entriesChildren_insertChildren d i h dist rest p]
      tauto
end

mutual
theorem BKNode.WF_insert {α β : Type} (d : β → β → Nat) (i : α) (h : β)
    (n : BKNode α β) (hwf : n.WF d) : (n.insert d i h).WF d := by
  cases n with
  | mk ni nh cs =>
    exact BKNode.WFChildren_insertChildren d i h nh (d h nh) rfl cs hwf

theorem BKNode.WFChildren_insertChildren {α β : Type} (d : β → β → Nat) (i : α) (h : β)
    (ph : β) (dist : Nat) (hdist : dist = d h ph) (cs : List (Nat × BKNode α β))
    (hwf : BKNode.WFChildren d ph cs) :
    BKNode.WFChildren d ph (BKNode.insertChildren d i h dist cs) := by
  cases cs with
  | nil =>
    refine ⟨?_, trivial, trivial⟩
    intro e he
    simp only [BKNode.entries, BKNode.entriesChildren, List.mem_singleton] at he
    subst he
    exact hdist.symm
  | cons kc rest =>
    obtain ⟨k, c⟩ := kc
    obtain ⟨hdists, hwfc, hwfrest⟩ := hwf
    by_cases hk : k = dist
    · simp only [BKNode.insertChildren, if_pos hk]
      refine ⟨?_, BKNode.WF_insert d i h c hwfc, hwfrest⟩
      intro e he
      rcases (BKNode.mem_entries_insert d i h c e).1 he with hold | hnew
      · exact hdists e hold
      · subst hnew; simp [hk, hdist]
    · simp only [BKNode.insertChildren, if_neg hk]
      exact ⟨hdists, hwfc,
        BKNode.WFChildren_insertChildren d i h ph dist hdist rest hwfrest⟩
end

mutual
theorem BKNode.searchRec_sound {α β : Type} (d : β → β → Nat) (q : β) (t : Nat)
    (n : BKNode α β) (p : α × Nat) (hp : p ∈ n.searchRec d q t) :
    ∃ e ∈ n.entries, p = (e.1, d q e.2) ∧ d q e.2 ≤ t := by
  cases n with
  | mk i h cs =>
    simp only [BKNode.searchRec, List.mem_append] at hp
    rcases hp with hp | hp
    · by_cases hd : d q h ≤ t
      · simp only [if_pos hd, List.mem_singleton] at hp
        exact ⟨(i, h), by simp [BKNode.entries], hp, hd⟩
      · simp [if_neg hd] at hp
    · obtain ⟨e, he, h1, h2⟩ :=
        BKNode.searchRecChildren_sound d q t (d q h) cs p hp
      exact ⟨e, by simp [BKNode.entries, he], h1, h2⟩

theorem BKNode.searchRecChildren_sound {α β : Type} (d : β → β → Nat) (q : β)
    (t dist : Nat) (cs : List (Nat × BKNode α β)) (p : α × Nat)
    (hp : p ∈ BKNode.searchRecChildren d q t dist cs) :
    ∃ e ∈ BKNode.entriesChildren cs, p = (e.1, d q e.2) ∧ d q e.2 ≤ t := by
  cases cs with
  | nil => simp [BKNode.searchRecChildren] at hp
  | cons kc rest =>
    obtain ⟨k, c⟩ := kc
    simp only [BKNode.searchRecChildren, List.mem_append] at hp
    rcases hp with hp | hp
    · by_cases hw : max 0 (dist - t) ≤ k ∧ k ≤ dist + t
      · simp only [if_pos hw] at hp
        obtain ⟨e, he, h1, h2⟩ := BKNode.searchRec_sound d q t c p hp
        exact ⟨e, by simp [BKNode.entriesChildren, he], h1, h2⟩
      · rw [if_neg hw] at hp
        simp at hp
    · obtain ⟨e, he, h1, h2⟩ := BKNode.searchRecChildren_sound d q t dist rest p hp
      exact ⟨e, by simp [BKNode.entriesChildren, he], h1, h2⟩
end

mutual
theorem BKNode.searchRec_complete {α β : Type} (d : β → β → Nat) (q : β) (t : Nat)
    (S : List β)
    (hsym : ∀ a ∈ S, d q a = d a q)
    (ht1 : ∀ a ∈ S, ∀ b ∈ S, d q b ≤ d q a + d a b)
    (ht2 : ∀ a ∈ S, ∀ b ∈ S, d a b ≤ d a q + d q b)
    (n : BKNode α β) (hwf : n.WF d) (hsub : ∀ e ∈ n.entries, e.2 ∈ S)
    (i0 : α) (h0 : β) (hmem : (i0, h0) ∈ n.entries) (hle : d q h0 ≤ t) :
    (i0, d q h0) ∈ n.searchRec d q t := by
  cases n with
  | mk i h cs =>
    simp only [BKNode.entries, List.mem_cons] at hmem
    simp only [BKNode.searchRec, List.mem_append]
    rcases hmem with heq | hmem
    · obtain ⟨rfl, rfl⟩ := Prod.mk.injEq .. ▸ heq
      left
      simp [hle]
    · right
      have hph : h ∈ S := hsub (i, h) (by simp [BKNode.entries])
      exact BKNode.searchRecChildren_complete d q t S hsym ht1 ht2 h hph (d q h) rfl cs hwf
        (fun e he => hsub e (by simp [BKNode.entries, he])) i0 h0 hmem hle

theorem BKNode.searchRecChildren_complete {α β : Type} (d : β → β → Nat) (q : β) (t : Nat)
    (S : List β)
    (hsym : ∀ a ∈ S, d q a = d a q)
    (ht1 : ∀ a ∈ S, ∀ b ∈ S, d q b ≤ d q a + d a b)
    (ht2 : ∀ a ∈ S, ∀ b ∈ S, d a b ≤ d a q + d q b)
    (ph : β) (hph : ph ∈ S) (dist : Nat) (hdist : dist = d q ph)
    (cs : List (Nat × BKNode α β)) (hwf : BKNode.WFChildren d ph cs)
    (hsub : ∀ e ∈ BKNode.entriesChildren cs, e.2 ∈ S)
    (i0 : α) (h0 : β) (hmem : (i0, h0) ∈ BKNode.entriesChildren cs) (hle : d q h0 ≤ t) :
    (i0, d q h0) ∈ BKNode.searchRecChildren d q t dist cs := by
  cases cs with
  | nil => simp [BKNode.entriesChildren] at hmem
  | cons kc rest =>
    obtain ⟨k, c⟩ := kc
    obtain ⟨hdists, hwfc, hwfrest⟩ := hwf
    simp only [BKNode.entriesChildren, List.mem_append] at hmem
    simp only [BKNode.searchRecChildren, List.mem_append]
    rcases hmem with hmem | hmem
    · left
      have hk : d h0 ph = k := hdists (i0, h0) hmem
      have hh0 : h0 ∈ S := hsub (i0, h0) (by simp [BKNode.entriesChildren, hmem])
      have hwin : max 0 (dist - t) ≤ k ∧ k ≤ dist + t := by
        constructor
        · have : d q ph ≤ d q h0 + d h0 ph := ht1 h0 hh0 ph hph
          omega
        · have h1 : d h0 ph ≤ d h0 q + d q ph := ht2 h0 hh0 ph hph
          have h2 : d q h0 = d h0 q := hsym h0 hh0
          omega
      rw [if_pos hwin]
      exact BKNode.searchRec_complete d q t S hsym ht1 ht2 c hwfc
        (fun e he => hsub e (by simp [BKNode.entriesChildren, he])) i0 h0 hmem hle
    · right
      exact BKNode.searchRecChildren_complete d q t S hsym ht1 ht2 ph hph dist hdist rest
        hwfrest (fun e he => hsub e (by simp [BKNode.entriesChildren, he])) i0 h0 hmem hle
end

/-- Total node count of a pending-node list. -/
def BKNode.sizesOf {α β : Type} (l : List (BKNode α β)) : Nat :=
  (l.map BKNode.size).sum

theorem BKNode.size_pos {α β : Type} (n : BKNode α β) : 1 ≤ n.size := by
  cases n with
  | mk i h cs => simp [BKNode.size]

theorem BKNode.sizesOf_childrenInRange_le {α β : Type} (lo hi : Nat)
    (cs : List (Nat × BKNode α β)) :
    BKNode.sizesOf (BKNode.childrenInRange lo hi cs) ≤ BKNode.sizeChildren cs := by
  induction cs with
  | nil => simp [BKNode.childrenInRange, BKNode.sizesOf, BKNode.sizeChildren]
  | cons kc rest ih =>
    obtain ⟨k, c⟩ := kc
    simp only [BKNode.childrenInRange, BKNode.sizeChildren]
    by_cases hw : lo ≤ k ∧ k ≤ hi
    · rw [if_pos hw]
      simp only [BKNode.sizesOf, List.map_cons, List.sum_cons]
      have := ih
      simp only [BKNode.sizesOf] at this
      omega
    · rw [if_neg hw]
      have := ih
      omega

theorem BKNode.mem_searchRecChildren_iff {α β : Type} (d : β → β → Nat) (q : β)
    (t dist : Nat) (cs : List (Nat × BKNode α β)) (p : α × Nat) :
    p ∈ BKNode.searchRecChildren d q t dist cs ↔
      ∃ c ∈ BKNode.childrenInRange (max 0 (dist - t)) (dist + t) cs,
        p ∈ c.searchRec d q t := by
  induction cs with
  | nil => simp [BKNode.searchRecChildren, BKNode.childrenInRange]
  | cons kc rest ih =>
    obtain ⟨k, c⟩ := kc
    simp only [BKNode.searchRecChildren, BKNode.childrenInRange, List.mem_append]
    by_cases hw : max 0 (dist - t) ≤ k ∧ k ≤ dist + t
    · rw [if_pos hw, if_pos hw]
      simp [ih]
    · rw [if_neg hw, if_neg hw]
      simp [ih]

/-- The fuel-indexed loop visits exactly the nodes the recursive traversal
visits, provided the fuel covers the total size of the pending nodes. -/
theorem BKNode.searchGo_spec {α β : Type} (d : β → β → Nat) (q : β) (t : Nat) :
    ∀ (fuel : Nat) (stack : List (BKNode α β)) (acc : List (α × Nat)),
      BKNode.sizesOf stack ≤ fuel →
      ∀ p, p ∈ BKNode.searchGo d q t fuel stack acc ↔
        p ∈ acc ∨ ∃ n ∈ stack, p ∈ n.searchRec d q t := by
  intro fuel
  induction fuel with
  | zero =>
    intro stack acc hsz p
    cases stack with
    | nil => simp [BKNode.searchGo]
    | cons n rest =>
      have h1 := BKNode.size_pos n
      simp only [BKNode.sizesOf, List.map_cons, List.sum_cons] at hsz
      omega
  | succ fuel ih =>
    intro stack acc hsz p
    cases stack with
    | nil => simp [BKNode.searchGo]
    | cons n rest =>
      cases n with
      | mk i h cs =>
        rw [BKNode.searchGo]
        have hsz' : BKNode.sizesOf
            (BKNode.childrenInRange (max 0 (d q h - t)) (d q h + t) cs ++ rest) ≤ fuel := by
          have h1 := BKNode.sizesOf_childrenInRange_le (max 0 (d q h - t)) (d q h + t) cs
          simp only [BKNode.sizesOf, List.map_cons, List.sum_cons, List.map_append,
            List.sum_append, BKNode.size] at hsz h1 ⊢
          omega
        rw [ih _ _ hsz' p]
        simp only [List.mem_append, List.mem_cons]
        constructor
        · rintro (hacc | ⟨c, (hc | hc), hpc⟩)
          · by_cases hd : d q h ≤ t
            · rw [if_pos hd] at hacc
              rcases List.mem_cons.1 hacc with heq | hacc
              · right
                exact ⟨.mk i h cs, Or.inl rfl, by
                  simp only [BKNode.searchRec, List.mem_append, heq]
                  left; simp [hd]⟩
              · exact Or.inl hacc
            · rw [if_neg hd] at hacc
              exact Or.inl hacc
          · right
            refine ⟨.mk i h cs, Or.inl rfl, ?_⟩
            simp only [BKNode.searchRec, List.mem_append]
            right
            exact (BKNode.mem_searchRecChildren_iff d q t (d q h) cs p).2 ⟨c, hc, hpc⟩
          · exact Or.inr ⟨c, Or.inr hc, hpc⟩
        · rintro (hacc | ⟨m, (hm | hm), hpm⟩)
          · left
            by_cases hd : d q h ≤ t
            · rw [if_pos hd]; exact List.mem_cons_of_mem _ hacc
            · rw [if_neg hd]; exact hacc
          · subst hm
            simp only [BKNode.searchRec, List.mem_append] at hpm
            rcases hpm with hpm | hpm
            · by_cases hd : d q h ≤ t
              · rw [if_pos hd] at hpm ⊢
                left
                simp only [List.mem_singleton] at hpm
                exact List.mem_cons.2 (Or.inl hpm)
              · rw [if_neg hd] at hpm
                simp at hpm
            · obtain ⟨c, hc, hpc⟩ :=
                (BKNode.mem_searchRecChildren_iff d q t (d q h) cs p).1 hpm
              exact Or.inr ⟨c, Or.inl hc, hpc⟩
          · exact Or.inr ⟨m, Or.inr hm, hpm⟩

/-- Membership in a `search` result, via the recursive traversal. -/
theorem BKTree.mem_search_iff {α β : Type} (d : β → β → Nat) (q : β) (t : Nat)
    (tr : BKTree α β) (p : α × Nat) :
    p ∈ BKTree.search d q t tr ↔ ∃ r, tr = some r ∧ p ∈ r.searchRec d q t := by
  cases tr with
  | none => simp [BKTree.search]
  | some r =>
    rw [BKTree.search, BKNode.searchGo_spec d q t r.size [r] []
      (by simp [BKNode.sizesOf]) p]
    constructor
    · rintro (h | ⟨n, hn, hp⟩)
      · simp at h
      · simp only [List.mem_singleton] at hn
        exact ⟨r, rfl, hn ▸ hp⟩
    · rintro ⟨r', hr', hp⟩
      obtain rfl : r = r' := by injection hr'
      exact Or.inr ⟨r, List.mem_singleton.2 rfl, hp⟩

theorem BKTree.WFT_add {α β : Type} (d : β → β → Nat) (i : α) (h : β)
    (tr : BKTree α β) (hwf : BKTree.WFT d tr) : BKTree.WFT d (BKTree.add d i h tr) := by
  cases tr with
  | none => simp [BKTree.add, BKTree.WFT, BKNode.WF, BKNode.WFChildren]
  | some r => exact BKNode.WF_insert d i h r hwf

theorem BKTree.mem_entriesT_add {α β : Type} (d : β → β → Nat) (i : α) (h : β)
    (tr : BKTree α β) (p : α × β) :
    p ∈ BKTree.entriesT (BKTree.add d i h tr) ↔ p ∈ BKTree.entriesT tr ∨ p = (i, h) := by
  cases tr with
  | none => simp [BKTree.add, BKTree.entriesT, BKNode.entries, BKNode.entriesChildren]
  | some r => exact BKNode.mem_entries_insert d i h r p

theorem BKTree.WFT_ofList {α β : Type} (d : β → β → Nat) (items : List (α × β)) :
    BKTree.WFT d (BKTree.ofList d items) := by
  suffices h : ∀ (tr : BKTree α β), BKTree.WFT d tr →
      BKTree.WFT d (items.foldl (fun t e => BKTree.add d e.1 e.2 t) tr) by
    exact h none trivial
  induction items with
  | nil => intro tr htr; exact htr
  | cons e rest ih =>
    intro tr htr
    exact ih _ (BKTree.WFT_add d e.1 e.2 tr htr)

theorem BKTree.mem_entriesT_ofList {α β : Type} (d : β → β → Nat)
    (items : List (α × β)) (p : α × β) :
    p ∈ BKTree.entriesT (BKTree.ofList d items) ↔ p ∈ items := by
  suffices h : ∀ (tr : BKTree α β),
      (p ∈ BKTree.entriesT (items.foldl (fun t e => BKTree.add d e.1 e.2 t) tr) ↔
        p ∈ BKTree.entriesT tr ∨ p ∈ items) by
    simpa [BKTree.entriesT, BKTree.ofList] using h none
  induction items with
  | nil => intro tr; simp
  | cons e rest ih =>
    intro tr
    rw [List.foldl_cons, ih (BKTree.add d e.1 e.2 tr),
      BKTree.mem_entriesT_add d e.1 e.2 tr p]
    simp only [List.mem_cons]
    constructor
    · rintro ((h | h) | h) <;> tauto
    · rintro (h | h | h) <;> tauto

/-- Symmetry and the triangle inequality of the distance function, relative
to a query and the finite set of stored hashes; this is what Hamming
distance provides and exactly what the pruning of `BKTree.search` uses. -/
def MetricOn {β : Type} (d : β → β → Nat) (q : β) (S : List β) : Prop :=
  (∀ a ∈ S, d q a = d a q) ∧
  (∀ a ∈ S, ∀ b ∈ S, d q b ≤ d q a + d a b) ∧
  (∀ a ∈ S, ∀ b ∈ S, d a b ≤ d a q + d q b)

instance {β : Type} (d : β → β → Nat) (q : β) (S : List β) [DecidableEq β] :
    Decidable (MetricOn d q S) := by
  unfold MetricOn
  infer_instance

/-! ## Union-find and the cluster builder
(`find_duplicate_groups`, api/duplicate_detection.py, lines 92-177)

The Python `parent` dictionary (initialised to the identity on the pool and
only ever read or written at pool ids) becomes a total function updated
pointwise.  The recursive `find` with path compression carries a fuel
argument bounding its recursion depth; the algorithm passes the pool size,
which the development shows is always sufficient
(`ufFind_fst_of_bounded`, `bounded_of_closedIn`). -/

/-- `find` (lines 132-135), with path compression: returns the root and the
updated parent map (`parent[x] = find(parent[x])` re-points `x` at the root
returned by the recursive call). -/
def ufFind {α : Type} [DecidableEq α] (p : α → α) : Nat → α → α × (α → α)
  | 0, x => (x, p)
  | fuel + 1, x =>
    if p x = x then (x, p)
    else
      let rp := ufFind p fuel (p x)
      (rp.1, fun y => if y = x then rp.1 else rp.2 y)

/-- `union` (lines 137-144): find both roots; when they differ, re-point the
first at the second and report one more duplicate relation found. -/
def ufUnion {α : Type} [DecidableEq α] (n : Nat) (x y : α) (p : α → α) :
    (α → α) × Bool :=
  let fx := ufFind p n x
  let fy := ufFind fx.2 n y
  if fx.1 ≠ fy.1 then (fun z => if z = fx.1 then fy.1 else fy.2 z, true)
  else (fy.2, false)

/-- State threaded through the comparison loop: the BK-tree, the union-find
parent map and the running `duplicates_found` counter. -/
structure ClusterState (α β : Type) where
  tree : BKTree α β
  parent : α → α
  dupes : Nat

/-- The inner loop over the matches of one item (lines 156-158): union the
current item with every match, counting the successful merges. -/
def processMatches {α : Type} [DecidableEq α] (n : Nat) (x : α) :
    List (α × Nat) → (α → α) → (α → α) × Nat
  | [], p => (p, 0)
  | (m, _) :: rest, p =>
    let u := ufUnion n x m p
    let r := processMatches n x rest u.1
    (r.1, (if u.2 then 1 else 0) + r.2)

/-- One iteration of the main loop (lines 152-161): query the tree for the
current item, union it with every match, then insert it for future
comparisons. -/
def clusterStep {α β : Type} [DecidableEq α] (d : β → β → Nat) (n t : Nat)
    (st : ClusterState α β) (item : α × β) : ClusterState α β :=
  let ms := BKTree.search d item.2 t st.tree
  let pr := processMatches n item.1 ms st.parent
  { tree := BKTree.add d item.1 item.2 st.tree
    parent := pr.1
    dupes := st.dupes + pr.2 }

/-- The whole comparison loop, from the empty tree and the identity parent
map (`parent = {photo[0]: photo[0] for photo in photos}`). -/
def clusterAll {α β : Type} [DecidableEq α] (d : β → β → Nat) (n t : Nat)
    (photos : List (α × β)) : ClusterState α β :=
  photos.foldl (clusterStep d n t) ⟨none, id, 0⟩

/-- The grouping loop (lines 171-174): look up each photo's root in photo
order, threading the path-compressed parent map through the calls. -/
def collectRoots {α : Type} [DecidableEq α] (n : Nat) :
    List α → (α → α) → List (α × α) × (α → α)
  | [], p => ([], p)
  | x :: xs, p =>
    let f := ufFind p n x
    let r := collectRoots n xs f.2
    ((x, f.1) :: r.1, r.2)

/-- First occurrences of a list, in order: the key order of a Python
dictionary filled by that list. -/
def firstKeys {α : Type} [DecidableEq α] (seen : List α) : List α → List α
  | [] => []
  | x :: xs => if x ∈ seen then firstKeys seen xs else x :: firstKeys (x :: seen) xs

/-- The `defaultdict` grouping (lines 171-174): ids grouped by their root,
groups in first-appearance order of the root, members in photo order. -/
def groupsOf {α : Type} [DecidableEq α] (pairs : List (α × α)) : List (List α) :=
  (firstKeys [] (pairs.map Prod.snd)).map
    (fun r => (pairs.filter (fun pr => decide (pr.2 = r))).map Prod.fst)

/-- The algorithmic core of `find_duplicate_groups` (lines 124-177), generic
in the distance function handed to the BK-tree: fewer than two photos yield
no groups; otherwise run the comparison loop over the photos in the given
order and keep the groups with more than one member. -/
def find_duplicate_groups_core {α β : Type} [DecidableEq α] (d : β → β → Nat)
    (photos : List (α × β)) (threshold : Nat) : List (List α) :=
  if photos.length < 2 then []
  else
    let st := clusterAll d photos.length threshold photos
    let pr := collectRoots photos.length (photos.map Prod.fst) st.parent
    (groupsOf pr.1).filter (fun g => decide (1 < g.length))

/-! ### Union-find correctness

`IsRoot`, `Bounded` and `ClosedIn` are the invariants of the parent map:
chains reach a root within the pool size, and all non-trivial entries stay
inside the pool.  Path compression is handled through `CompressedOf`: the
compressed map agrees with the old one except for entries re-pointed at
their own (unchanged) root. -/

/-- `x` is its own parent. -/
def IsRoot {α : Type} (p : α → α) (x : α) : Prop := p x = x

/-- Every chain reaches a root within `n` steps. -/
def Bounded {α : Type} (p : α → α) (n : Nat) : Prop := ∀ x, IsRoot p (p^[n] x)

/-- All non-trivial parent entries stay inside the pool `s`. -/
def ClosedIn {α : Type} (p : α → α) (s : List α) : Prop :=
  ∀ x, p x ≠ x → x ∈ s ∧ p x ∈ s

/-- `p'` differs from `p` only by pointing some nodes directly at their own
`p`-root (what one `find` call's path compression does). -/
def CompressedOf {α : Type} (p p' : α → α) : Prop :=
  ∀ z, p' z = p z ∨ ∃ k, p' z = p^[k] z ∧ IsRoot p (p^[k] z)

theorem iterate_of_isRoot {α : Type} {p : α → α} {x : α} (h : IsRoot p x) :
    ∀ k, p^[k] x = x := by
  intro k
  induction k with
  | zero => rfl
  | succ k ih => rw [Function.iterate_succ_apply, h, ih]

theorem iterate_stable {α : Type} {p : α → α} {x : α} {k : Nat}
    (h : IsRoot p (p^[k] x)) {m : Nat} (hkm : k ≤ m) : p^[m] x = p^[k] x := by
  obtain ⟨j, rfl⟩ := Nat.exists_eq_add_of_le hkm
  rw [Nat.add_comm, Function.iterate_add_apply, iterate_of_isRoot h]

theorem isRoot_iterate_unique {α : Type} {p : α → α} {x : α} {k m : Nat}
    (hk : IsRoot p (p^[k] x)) (hm : IsRoot p (p^[m] x)) : p^[k] x = p^[m] x := by
  rcases Nat.le_total k m with h | h
  · rw [iterate_stable hk h]
  · rw [iterate_stable hm h]

theorem iterate_mem {α : Type} {p : α → α} {s : List α} (hc : ClosedIn p s)
    {z : α} (hz : p z ≠ z) : ∀ m, p^[m + 1] z ∈ s := by
  intro m
  induction m with
  | zero => simpa using (hc z hz).2
  | succ m ih =>
    rw [Function.iterate_succ_apply']
    by_cases hw : p (p^[m + 1] z) = p^[m + 1] z
    · rwa [hw]
    · exact (hc _ hw).2

theorem root_mem {α : Type} {p : α → α} {s : List α} (hc : ClosedIn p s)
    {x : α} (hx : x ∈ s) (n : Nat) : p^[n] x ∈ s := by
  by_cases hroot : p x = x
  · rwa [iterate_of_isRoot hroot]
  · cases n with
    | zero => simpa
    | succ m => exact iterate_mem hc hroot m

theorem ufFind_fst_of_bounded {α : Type} [DecidableEq α] {p : α → α} :
    ∀ (f : Nat) (x : α), IsRoot p (p^[f] x) → (ufFind p f x).1 = p^[f] x := by
  intro f
  induction f with
  | zero => intro x _; rfl
  | succ f ih =>
    intro x hroot
    by_cases hx : p x = x
    · rw [ufFind, if_pos hx, iterate_of_isRoot hx]
    · rw [ufFind, if_neg hx]
      have := ih (p x) (by rwa [← Function.iterate_succ_apply])
      simp only [← Function.iterate_succ_apply]
      exact this

theorem ufFind_snd_compressedOf {α : Type} [DecidableEq α] {p : α → α} :
    ∀ (f : Nat) (x : α), IsRoot p (p^[f] x) → CompressedOf p (ufFind p f x).2 := by
  intro f
  induction f with
  | zero => intro x _ z; exact Or.inl rfl
  | succ f ih =>
    intro x hroot z
    by_cases hx : p x = x
    · rw [ufFind, if_pos hx]
      exact Or.inl rfl
    · rw [ufFind, if_neg hx]
      simp only
      by_cases hz : z = x
      · subst hz
        right
        refine ⟨f + 1, ?_, hroot⟩
        rw [if_pos rfl, ufFind_fst_of_bounded f (p z)
          (by rwa [← Function.iterate_succ_apply]), ← Function.iterate_succ_apply]
      · rw [if_neg hz]
        exact ih (p x) (by rwa [← Function.iterate_succ_apply]) z

theorem compressedOf_isRoot {α : Type} {p p' : α → α} (hcomp : CompressedOf p p')
    {r : α} (hr : IsRoot p r) : IsRoot p' r := by
  rcases hcomp r with h | ⟨k, h, _⟩
  · rw [IsRoot, h, hr]
  · rw [IsRoot, h, iterate_of_isRoot hr]

theorem compressedOf_iterate {α : Type} {p p' : α → α} (hcomp : CompressedOf p p') :
    ∀ (j : Nat) (z : α), IsRoot p (p^[j] z) → p'^[j] z = p^[j] z := by
  intro j
  induction j with
  | zero => intro z _; rfl
  | succ j ih =>
    intro z hroot
    by_cases hz : p z = z
    · have hz' : p' z = z := compressedOf_isRoot hcomp hz
      rw [Function.iterate_succ_apply, hz', iterate_of_isRoot hz,
        ih z (by rw [iterate_of_isRoot hz]; exact hz), iterate_of_isRoot hz]
    · rcases hcomp z with h | ⟨k, h, hk⟩
      · rw [Function.iterate_succ_apply, h,
          ih (p z) (by rwa [← Function.iterate_succ_apply]),
          ← Function.iterate_succ_apply]
      · have hrootk : IsRoot p (p^[j] (p^[k] z)) := by
          rw [iterate_of_isRoot hk]; exact hk
        rw [Function.iterate_succ_apply, h, ih _ hrootk, iterate_of_isRoot hk]
        exact isRoot_iterate_unique hk hroot

theorem compressedOf_bounded {α : Type} {p p' : α → α} (hcomp : CompressedOf p p')
    {n : Nat} (hb : Bounded p n) : Bounded p' n := by
  intro z
  rw [IsRoot, compressedOf_iterate hcomp n z (hb z)]
  exact compressedOf_isRoot hcomp (hb z)

theorem compressedOf_closedIn {α : Type} {p p' : α → α} (hcomp : CompressedOf p p')
    {s : List α} (hc : ClosedIn p s) : ClosedIn p' s := by
  intro z hz
  rcases hcomp z with h | ⟨k, h, _⟩
  · rw [h] at hz ⊢
    exact hc z hz
  · cases k with
    | zero => exact absurd (h.trans rfl) hz
    | succ m =>
      have hz0 : p z ≠ z := by
        intro hroot
        exact hz (by rw [h, iterate_of_isRoot hroot])
      exact ⟨(hc z hz0).1, by rw [h]; exact iterate_mem hc hz0 m⟩

/-- Pigeonhole: a chain that first reaches a root (lying in the pool) after
`k` steps has visited `k` distinct non-roots of the pool first, so `k` is
less than the pool size. -/
theorem steps_lt_of_minimal {α : Type} {p : α → α} {s : List α} [DecidableEq α]
    (hc : ClosedIn p s) (hnd : s.Nodup) {z : α} {k : Nat}
    (hroot : IsRoot p (p^[k] z)) (hmin : ∀ j < k, ¬ IsRoot p (p^[j] z))
    (hin : p^[k] z ∈ s) : k < s.length := by
  have hinj : ∀ i ∈ List.range (k + 1), ∀ j ∈ List.range (k + 1),
      p^[i] z = p^[j] z → i = j := by
    have key : ∀ i j, i < j → j ≤ k → p^[i] z = p^[j] z → False := by
      intro i j hij hjk heq
      obtain ⟨r, rfl⟩ := Nat.exists_eq_add_of_le hjk
      have hk2 : p^[j + r] z = p^[i + r] z := by
        rw [Nat.add_comm j r, Nat.add_comm i r, Function.iterate_add_apply,
          Function.iterate_add_apply, heq]
      have : IsRoot p (p^[i + r] z) := by rw [← hk2]; exact hroot
      exact hmin (i + r) (by omega) this
    intro i hi j hj heq
    simp only [List.mem_range] at hi hj
    rcases Nat.lt_trichotomy i j with h | h | h
    · exact absurd heq (fun he => key i j h (by omega) he)
    · exact h
    · exact absurd heq.symm (fun he => key j i h (by omega) he)
  have hmem : ∀ i ∈ List.range (k + 1), p^[i] z ∈ s := by
    intro i hi
    simp only [List.mem_range] at hi
    by_cases hik : i = k
    · subst hik; exact hin
    · have : ¬ IsRoot p (p^[i] z) := hmin i (by omega)
      exact (hc _ this).1
  have hnodupL : ((List.range (k + 1)).map (fun j => p^[j] z)).Nodup :=
    (List.nodup_range _).map_on hinj
  have hsub : ((List.range (k + 1)).map (fun j => p^[j] z)).toFinset ⊆ s.toFinset := by
    intro a ha
    rw [List.mem_toFinset] at ha
    obtain ⟨i, hi, rfl⟩ := List.mem_map.1 ha
    exact List.mem_toFinset.2 (hmem i hi)
  have h1 : k + 1 = ((List.range (k + 1)).map (fun j => p^[j] z)).toFinset.card := by
    rw [List.toFinset_card_of_nodup hnodupL, List.length_map, List.length_range]
  have h2 : s.toFinset.card = s.length := List.toFinset_card_of_nodup hnd
  have := Finset.card_le_card hsub
  omega

instance {α : Type} [DecidableEq α] (p : α → α) (x : α) : Decidable (IsRoot p x) := by
  unfold IsRoot
  infer_instance

/-- A terminating, pool-closed parent map reaches roots within the pool
size. -/
theorem bounded_of_closedIn {α : Type} [DecidableEq α] {p : α → α} {s : List α}
    (hc : ClosedIn p s) (hnd : s.Nodup)
    (ht : ∀ z, ∃ k, IsRoot p (p^[k] z)) : Bounded p s.length := by
  intro z
  have hex := ht z
  obtain ⟨km, hroot, hmin⟩ :
      ∃ km, IsRoot p (p^[km] z) ∧ ∀ j < km, ¬ IsRoot p (p^[j] z) :=
    ⟨Nat.find hex, Nat.find_spec hex, fun j hj => Nat.find_min hex hj⟩
  rcases Nat.eq_zero_or_pos km with h0 | hpos
  · have : IsRoot p z := by rwa [h0] at hroot
    rw [iterate_of_isRoot this]
    exact this
  · have hz0 : p z ≠ z := by
      have := hmin 0 hpos
      simpa [IsRoot] using this
    have hin : p^[km] z ∈ s := by
      obtain ⟨m, hm⟩ : ∃ m, km = m + 1 := ⟨km - 1, by omega⟩
      rw [hm]
      exact iterate_mem hc hz0 m
    have hlt : km < s.length := steps_lt_of_minimal hc hnd hroot hmin hin
    rw [iterate_stable hroot (Nat.le_of_lt hlt)]
    exact hroot

/-- Re-pointing one root `px` at another root `py` keeps the parent map
closed and bounded, and moves exactly the class of `px` to the class of
`py`. -/
theorem link_spec {α : Type} [DecidableEq α] {p : α → α} {s : List α}
    (hc : ClosedIn p s) (hb : Bounded p s.length) (hnd : s.Nodup)
    {px py : α} (hpx : IsRoot p px) (hpy : IsRoot p py) (hne : px ≠ py)
    (hpxs : px ∈ s) (hpys : py ∈ s) :
    ClosedIn (fun z => if z = px then py else p z) s ∧
    Bounded (fun z => if z = px then py else p z) s.length ∧
    ∀ z, (fun z => if z = px then py else p z)^[s.length] z =
      if p^[s.length] z = px then py else p^[s.length] z := by
  set n := s.length with hn
  set p' := fun z => if z = px then py else p z with hp'
  have hagree : ∀ (j : Nat) (z : α), (∀ i < j, p^[i] z ≠ px) → p'^[j] z = p^[j] z := by
    intro j
    induction j with
    | zero => intro z _; rfl
    | succ j ih =>
      intro z hz
      have h0 : z ≠ px := by simpa using hz 0 (by omega)
      rw [Function.iterate_succ_apply, Function.iterate_succ_apply]
      have hpz : p' z = p z := by rw [hp']; simp [h0]
      rw [hpz]
      exact ih (p z) (fun i hi => by
        rw [← Function.iterate_succ_apply]
        exact hz (i + 1) (by omega))
  have hclosed : ClosedIn p' s := by
    intro z hz
    by_cases hzpx : z = px
    · subst hzpx
      exact ⟨hpxs, by rw [hp']; simpa using hpys⟩
    · have hpz : p' z = p z := by rw [hp']; simp [hzpx]
      rw [hpz] at hz ⊢
      exact hc z hz
  have hroot_py : IsRoot p' py := by
    rw [IsRoot, hp']
    simp only
    rw [if_neg hne.symm]
    exact hpy
  have hformula : ∀ z, ((if p^[n] z = px then py else p^[n] z) = p'^[n] z) ∧
      IsRoot p' (p'^[n] z) := by
    intro z
    by_cases hz : p^[n] z = px
    · -- the chain of z reaches px; it does so for the first time before
      -- the pool size is exhausted, and then takes one extra step to py
      have hex : ∃ j, p^[j] z = px := ⟨n, hz⟩
      obtain ⟨km, hkmn, hkm, hminpx⟩ :
          ∃ km, km ≤ n ∧ p^[km] z = px ∧ ∀ i < km, p^[i] z ≠ px :=
        ⟨Nat.find hex, Nat.find_le hz, Nat.find_spec hex,
          fun i hi => Nat.find_min hex hi⟩
      have hrootkm : IsRoot p (p^[km] z) := by rw [hkm]; exact hpx
      have hmin : ∀ j < km, ¬ IsRoot p (p^[j] z) := by
        intro j hj hcon
        have : p^[n] z = p^[j] z := by
          have hjn : j ≤ n := by omega
          exact iterate_stable hcon hjn
        exact hminpx j hj (by rw [← this]; exact hz)
      have hkmlt : km < n := by
        rw [hn]
        exact steps_lt_of_minimal hc hnd hrootkm hmin (by rw [hkm]; exact hpxs)
      have hstep : p'^[km + 1] z = py := by
        rw [Function.iterate_succ_apply', hagree km z hminpx, hkm, hp']
        simp
      have hfinal : p'^[n] z = py := by
        have : ∀ m, p'^[km + 1 + m] z = py := by
          intro m
          induction m with
          | zero => exact hstep
          | succ m ih =>
            rw [← Nat.add_assoc, Function.iterate_succ_apply', ih]
            exact hroot_py
        have h2 := this (n - (km + 1))
        rw [show km + 1 + (n - (km + 1)) = n by omega] at h2
        exact h2
      refine ⟨by rw [hfinal, if_pos hz], ?_⟩
      rw [hfinal]
      exact hroot_py
    · -- the chain of z never meets px
      have hnever : ∀ i, p^[i] z ≠ px := by
        intro i hi
        have hrooti : IsRoot p (p^[i] z) := by rw [hi]; exact hpx
        rcases Nat.le_total i n with hin | hni
        · exact hz (by rw [iterate_stable hrooti hin, hi])
        · have := iterate_stable (hb z) hni
          rw [this] at hi
          exact hz hi
      have hag : p'^[n] z = p^[n] z := hagree n z (fun i _ => hnever i)
      refine ⟨by rw [hag, if_neg hz], ?_⟩
      rw [hag, IsRoot, hp']
      simp only
      rw [if_neg hz]
      exact hb z
  exact ⟨hclosed, fun z => (hformula z).2, fun z => ((hformula z).1).symm⟩

/-- Full specification of one `find` call at fuel `n` under the invariants:
the returned root is `p^[n] x`, and the compressed map keeps the pool
closure, the bound and every root. -/
theorem ufFind_spec {α : Type} [DecidableEq α] {p : α → α} {s : List α}
    (hc : ClosedIn p s) (hb : Bounded p s.length) (x : α) :
    (ufFind p s.length x).1 = p^[s.length] x ∧
    ClosedIn (ufFind p s.length x).2 s ∧
    Bounded (ufFind p s.length x).2 s.length ∧
    ∀ z, (ufFind p s.length x).2^[s.length] z = p^[s.length] z := by
  have hcomp : CompressedOf p (ufFind p s.length x).2 :=
    ufFind_snd_compressedOf s.length x (hb x)
  exact ⟨ufFind_fst_of_bounded s.length x (hb x),
    compressedOf_closedIn hcomp hc,
    compressedOf_bounded hcomp hb,
    fun z => compressedOf_iterate hcomp s.length z (hb z)⟩

/-- Full specification of one `union` call: the invariants persist and the
root map changes by exactly merging the class of `x` into the class of
`y`. -/
theorem ufUnion_spec {α : Type} [DecidableEq α] {p : α → α} {s : List α}
    (hc : ClosedIn p s) (hb : Bounded p s.length) (hnd : s.Nodup)
    {x y : α} (hx : x ∈ s) (hy : y ∈ s) :
    ClosedIn (ufUnion s.length x y p).1 s ∧
    Bounded (ufUnion s.length x y p).1 s.length ∧
    ∀ z, (ufUnion s.length x y p).1^[s.length] z =
      if p^[s.length] z = p^[s.length] x then p^[s.length] y
      else p^[s.length] z := by
  set n := s.length with hn
  obtain ⟨hfx1, hc1, hb1, hr1⟩ := ufFind_spec hc hb x
  set p1 := (ufFind p n x).2 with hp1
  obtain ⟨hfy1, hc2, hb2, hr2⟩ := ufFind_spec hc1 hb1 y
  set p2 := (ufFind p1 n y).2 with hp2
  have hroots2 : ∀ z, p2^[n] z = p^[n] z := fun z => (hr2 z).trans (hr1 z)
  have hpx : (ufFind p n x).1 = p^[n] x := hfx1
  have hpy : (ufFind p1 n y).1 = p^[n] y := by rw [hfy1, hr1]
  have hrootpx : IsRoot p (p^[n] x) := hb x
  have hrootpy : IsRoot p (p^[n] y) := hb y
  have hrootpx2 : IsRoot p2 (p^[n] x) := by
    have h1 : IsRoot p1 (p^[n] x) :=
      compressedOf_isRoot (ufFind_snd_compressedOf n x (hb x)) hrootpx
    exact compressedOf_isRoot (ufFind_snd_compressedOf n y (hb1 y)) h1
  have hrootpy2 : IsRoot p2 (p^[n] y) := by
    have h1 : IsRoot p1 (p^[n] y) :=
      compressedOf_isRoot (ufFind_snd_compressedOf n x (hb x)) hrootpy
    exact compressedOf_isRoot (ufFind_snd_compressedOf n y (hb1 y)) h1
  by_cases hne : p^[n] x = p^[n] y
  · -- no merge: the result map is the twice-compressed one
    have hunion : (ufUnion n x y p).1 = p2 := by
      rw [ufUnion]
      simp only [← hp1, ← hp2, hpx, hpy]
      rw [if_neg (by simpa using hne)]
    rw [hunion]
    refine ⟨hc2, hb2, fun z => ?_⟩
    rw [hroots2 z]
    by_cases hz : p^[n] z = p^[n] x
    · rw [if_pos hz, hz, hne]
    · rw [if_neg hz]
  · -- merge: re-point the root of x at the root of y
    have hunion : (ufUnion n x y p).1 =
        fun z => if z = p^[n] x then p^[n] y else p2 z := by
      rw [ufUnion]
      simp only [← hp1, ← hp2, hpx, hpy]
      rw [if_pos (by simpa using hne)]
    have hpxs : p^[n] x ∈ s := root_mem hc hx n
    have hpys : p^[n] y ∈ s := root_mem hc hy n
    obtain ⟨hlc, hlb, hlf⟩ :=
      link_spec hc2 hb2 hnd hrootpx2 hrootpy2 hne hpxs hpys
    rw [hunion]
    refine ⟨hlc, hlb, fun z => ?_⟩
    rw [hlf z, hroots2 z]

/-- Two ids lie in the same union-find class: equal roots. -/
def rootEq {α : Type} (p : α → α) (n : Nat) (a b : α) : Prop :=
  p^[n] a = p^[n] b

/-- `a`'s class is among the classes merged when `x` is unioned with every
match in `ms`. -/
def inMerged {α : Type} (p : α → α) (n : Nat) (x : α) (ms : List (α × Nat)) (a : α) :
    Prop :=
  rootEq p n a x ∨ ∃ e ∈ ms, rootEq p n a e.1

theorem mergedRoot_iff {α : Type} [DecidableEq α] (ra rb X Y : α) :
    ((if ra = X then Y else ra) = (if rb = X then Y else rb)) ↔
      (ra = rb ∨ ((ra = X ∨ ra = Y) ∧ (rb = X ∨ rb = Y))) := by
  by_cases h1 : ra = X
  · by_cases h2 : rb = X
    · simp [h1, h2]
    · rw [if_pos h1, if_neg h2]
      constructor
      · intro h
        exact Or.inr ⟨Or.inl h1, Or.inr h.symm⟩
      · rintro (h | ⟨-, (h | h)⟩)
        · exact absurd (h1 ▸ h.symm ▸ rfl : rb = X) h2
        · exact absurd h h2
        · exact h.symm
  · by_cases h2 : rb = X
    · rw [if_neg h1, if_pos h2]
      constructor
      · intro h
        exact Or.inr ⟨Or.inr h, Or.inl h2⟩
      · rintro (h | ⟨(h | h), -⟩)
        · exact absurd (h2 ▸ h ▸ rfl : ra = X) h1
        · exact absurd h h1
        · exact h
    · rw [if_neg h1, if_neg h2]
      constructor
      · intro h
        exact Or.inl h
      · rintro (h | ⟨(h | h), (h' | h')⟩)
        · exact h
        · exact absurd h h1
        · exact absurd h h1
        · exact absurd h' h2
        · exact h.trans h'.symm

/-- One `union x y` merges exactly the classes of `x` and `y`. -/
theorem ufUnion_rootEq_iff {α : Type} [DecidableEq α] {p : α → α} {s : List α}
    (hc : ClosedIn p s) (hb : Bounded p s.length) (hnd : s.Nodup)
    {x y : α} (hx : x ∈ s) (hy : y ∈ s) (a b : α) :
    rootEq (ufUnion s.length x y p).1 s.length a b ↔
      rootEq p s.length a b ∨
        ((rootEq p s.length a x ∨ rootEq p s.length a y) ∧
         (rootEq p s.length b x ∨ rootEq p s.length b y)) := by
  obtain ⟨-, -, hf⟩ := ufUnion_spec hc hb hnd hx hy
  rw [rootEq, hf a, hf b]
  exact mergedRoot_iff _ _ _ _

/-- The matches loop of one item: invariants persist and the classes of the
item and of all its matches are merged into one, all else unchanged. -/
theorem processMatches_spec {α : Type} [DecidableEq α] {s : List α} (hnd : s.Nodup)
    (x : α) (hx : x ∈ s) :
    ∀ (ms : List (α × Nat)) (p : α → α), ClosedIn p s → Bounded p s.length →
      (∀ e ∈ ms, e.1 ∈ s) →
      ClosedIn (processMatches s.length x ms p).1 s ∧
      Bounded (processMatches s.length x ms p).1 s.length ∧
      ∀ a b, rootEq (processMatches s.length x ms p).1 s.length a b ↔
        rootEq p s.length a b ∨
          (inMerged p s.length x ms a ∧ inMerged p s.length x ms b) := by
  intro ms
  induction ms with
  | nil =>
    intro p hc hb _
    refine ⟨hc, hb, fun a b => ?_⟩
    simp only [processMatches, inMerged, List.not_mem_nil, false_and, exists_false,
      or_false]
    constructor
    · exact Or.inl
    · rintro (h | ⟨ha, hb'⟩)
      · exact h
      · exact ha.trans hb'.symm
  | cons e rest ih =>
    intro p hc hb hms
    obtain ⟨me, de⟩ := e
    have hme : me ∈ s := hms (me, de) (List.mem_cons_self _ _)
    have hrest : ∀ e' ∈ rest, e'.1 ∈ s := fun e' he' => hms e' (List.mem_cons_of_mem _ he')
    obtain ⟨hcq, hbq, -⟩ := ufUnion_spec hc hb hnd hx hme
    have hq := ufUnion_rootEq_iff hc hb hnd hx hme
    set q := (ufUnion s.length x me p).1 with hqdef
    obtain ⟨hcf, hbf, hf⟩ := ih q hcq hbq hrest
    have hpm : processMatches s.length x ((me, de) :: rest) p =
        ((processMatches s.length x rest q).1,
          (if (ufUnion s.length x me p).2 then 1 else 0) +
            (processMatches s.length x rest q).2) := by
      rw [processMatches]
    refine ⟨by rw [hpm]; exact hcf, by rw [hpm]; exact hbf, fun a b => ?_⟩
    rw [hpm]
    rw [hf a b]
    -- translate the q-level facts down to p-level facts
    have hqx : ∀ u, rootEq q s.length u x ↔
        (rootEq p s.length u x ∨ rootEq p s.length u me) := by
      intro u
      rw [hq u x]
      constructor
      · rintro (h | ⟨hu, -⟩)
        · exact Or.inl h
        · exact hu
      · intro hu
        exact Or.inr ⟨hu, Or.inl rfl⟩
    have hqm : ∀ (u : α) (e' : α × Nat), rootEq q s.length u e'.1 ↔
        (rootEq p s.length u e'.1 ∨
          ((rootEq p s.length u x ∨ rootEq p s.length u me) ∧
           (rootEq p s.length e'.1 x ∨ rootEq p s.length e'.1 me))) :=
      fun u e' => hq u e'.1
    have hmergedTail : ∀ u, (rootEq p s.length u x ∨ rootEq p s.length u me) →
        inMerged p s.length x ((me, de) :: rest) u := by
      rintro u (h | h)
      · exact Or.inl h
      · exact Or.inr ⟨(me, de), List.mem_cons_self _ _, h⟩
    have hofq : ∀ u, inMerged q s.length x rest u →
        inMerged p s.length x ((me, de) :: rest) u := by
      rintro u (h | ⟨e', he', h⟩)
      · exact hmergedTail u ((hqx u).1 h)
      · rcases (hqm u e').1 h with h2 | ⟨h2, -⟩
        · exact Or.inr ⟨e', List.mem_cons_of_mem _ he', h2⟩
        · exact hmergedTail u h2
    have htoq : ∀ u, inMerged p s.length x ((me, de) :: rest) u →
        inMerged q s.length x rest u := by
      rintro u (h | ⟨e', he', h⟩)
      · exact Or.inl ((hqx u).2 (Or.inl h))
      · rcases List.mem_cons.1 he' with rfl | he2
        · exact Or.inl ((hqx u).2 (Or.inr h))
        · exact Or.inr ⟨e', he2, (hqm u e').2 (Or.inl h)⟩
    constructor
    · rintro (hab | ⟨ha, hb'⟩)
      · rcases (hq a b).1 hab with h | ⟨h1, h2⟩
        · exact Or.inl h
        · exact Or.inr ⟨hmergedTail a h1, hmergedTail b h2⟩
      · exact Or.inr ⟨hofq a ha, hofq b hb'⟩
    · rintro (hab | ⟨ha, hb'⟩)
      · exact Or.inl ((hq a b).2 (Or.inl hab))
      · exact Or.inr ⟨htoq a ha, htoq b hb'⟩

/-! ### Threshold monotonicity of the range query and of the whole run -/

mutual
theorem searchRec_mono {α β : Type} (d : β → β → Nat) (q : β) {t1 t2 : Nat}
    (hT : t1 ≤ t2) (n : BKNode α β) (p : α × Nat)
    (hp : p ∈ n.searchRec d q t1) : p ∈ n.searchRec d q t2 := by
  cases n with
  | mk i h cs =>
    simp only [BKNode.searchRec, List.mem_append] at hp ⊢
    rcases hp with hp | hp
    · left
      by_cases hd : d q h ≤ t1
      · rw [if_pos hd] at hp
        rw [if_pos (hd.trans hT)]
        exact hp
      · rw [if_neg hd] at hp
        simp at hp
    · right
      exact searchRecChildren_mono d q hT (d q h) cs p hp

theorem searchRecChildren_mono {α β : Type} (d : β → β → Nat) (q : β) {t1 t2 : Nat}
    (hT : t1 ≤ t2) (dist : Nat) (cs : List (Nat × BKNode α β)) (p : α × Nat)
    (hp : p ∈ BKNode.searchRecChildren d q t1 dist cs) :
    p ∈ BKNode.searchRecChildren d q t2 dist cs := by
  cases cs with
  | nil => simp [BKNode.searchRecChildren] at hp
  | cons kc rest =>
    obtain ⟨k, c⟩ := kc
    simp only [BKNode.searchRecChildren, List.mem_append] at hp ⊢
    rcases hp with hp | hp
    · left
      by_cases hw : max 0 (dist - t1) ≤ k ∧ k ≤ dist + t1
      · rw [if_pos hw] at hp
        rw [if_pos (by omega)]
        exact searchRec_mono d q hT c p hp
      · rw [if_neg hw] at hp
        simp at hp
    · right
      exact searchRecChildren_mono d q hT dist rest p hp
end

/-- A larger threshold can only add results to a range query. -/
theorem search_mono {α β : Type} (d : β → β → Nat) (q : β) {t1 t2 : Nat}
    (hT : t1 ≤ t2) (tr : BKTree α β) (p : α × Nat)
    (hp : p ∈ BKTree.search d q t1 tr) : p ∈ BKTree.search d q t2 tr := by
  obtain ⟨r, rfl, hpr⟩ := (BKTree.mem_search_iff d q t1 tr p).1 hp
  exact (BKTree.mem_search_iff d q t2 (some r) p).2 ⟨r, rfl, searchRec_mono d q hT r p hpr⟩

/-- Every id a range query returns was stored in the tree. -/
theorem search_fst_mem {α β : Type} (d : β → β → Nat) (q : β) (t : Nat)
    (tr : BKTree α β) (p : α × Nat) (hp : p ∈ BKTree.search d q t tr) :
    ∃ e ∈ BKTree.entriesT tr, p.1 = e.1 := by
  obtain ⟨r, rfl, hpr⟩ := (BKTree.mem_search_iff d q t tr p).1 hp
  obtain ⟨e, he, hpe, -⟩ := BKNode.searchRec_sound d q t r p hpr
  exact ⟨e, he, by rw [hpe]⟩

/-- Running the comparison loop at two thresholds `t1 ≤ t2` over the same
items: trees stay equal, the union-find invariants persist, and every pair
of ids clustered together at `t1` is clustered together at `t2`. -/
theorem clusterFold_refines {α β : Type} [DecidableEq α] (d : β → β → Nat)
    {t1 t2 : Nat} (hT : t1 ≤ t2) (s : List α) (hnd : s.Nodup) :
    ∀ (items : List (α × β)) (st1 st2 : ClusterState α β),
      (∀ e ∈ items, e.1 ∈ s) →
      st1.tree = st2.tree →
      (∀ e ∈ BKTree.entriesT st1.tree, e.1 ∈ s) →
      ClosedIn st1.parent s → Bounded st1.parent s.length →
      ClosedIn st2.parent s → Bounded st2.parent s.length →
      (∀ a b, rootEq st1.parent s.length a b → rootEq st2.parent s.length a b) →
      (items.foldl (clusterStep d s.length t1) st1).tree =
        (items.foldl (clusterStep d s.length t2) st2).tree ∧
      (∀ e ∈ BKTree.entriesT (items.foldl (clusterStep d s.length t1) st1).tree,
        e.1 ∈ s) ∧
      ClosedIn (items.foldl (clusterStep d s.length t1) st1).parent s ∧
      Bounded (items.foldl (clusterStep d s.length t1) st1).parent s.length ∧
      ClosedIn (items.foldl (clusterStep d s.length t2) st2).parent s ∧
      Bounded (items.foldl (clusterStep d s.length t2) st2).parent s.length ∧
      (∀ a b, rootEq (items.foldl (clusterStep d s.length t1) st1).parent s.length a b →
        rootEq (items.foldl (clusterStep d s.length t2) st2).parent s.length a b) := by
  intro items
  induction items with
  | nil =>
    intro st1 st2 _ htree hte hc1 hb1 hc2 hb2 hR
    exact ⟨htree, hte, hc1, hb1, hc2, hb2, hR⟩
  | cons item rest ih =>
    intro st1 st2 hids htree hte hc1 hb1 hc2 hb2 hR
    obtain ⟨xi, hi⟩ := item
    have hxi : xi ∈ s := hids (xi, hi) (List.mem_cons_self _ _)
    -- the matches at both thresholds, over the same tree
    have hms1 : ∀ e ∈ BKTree.search d hi t1 st1.tree, e.1 ∈ s := by
      intro e he
      obtain ⟨e', he', heq⟩ := search_fst_mem d hi t1 st1.tree e he
      rw [heq]
      exact hte e' he'
    have hsubset : ∀ e ∈ BKTree.search d hi t1 st1.tree,
        e ∈ BKTree.search d hi t2 st2.tree := by
      intro e he
      rw [← htree]
      exact search_mono d hi hT st1.tree e he
    have hms2 : ∀ e ∈ BKTree.search d hi t2 st2.tree, e.1 ∈ s := by
      intro e he
      obtain ⟨e', he', heq⟩ := search_fst_mem d hi t2 st2.tree e he
      rw [heq]
      rw [← htree] at he'
      exact hte e' he'
    obtain ⟨hc1', hb1', hchar1⟩ :=
      processMatches_spec hnd xi hxi (BKTree.search d hi t1 st1.tree) st1.parent
        hc1 hb1 hms1
    obtain ⟨hc2', hb2', hchar2⟩ :=
      processMatches_spec hnd xi hxi (BKTree.search d hi t2 st2.tree) st2.parent
        hc2 hb2 hms2
    have hR' : ∀ a b,
        rootEq (processMatches s.length xi (BKTree.search d hi t1 st1.tree) st1.parent).1
          s.length a b →
        rootEq (processMatches s.length xi (BKTree.search d hi t2 st2.tree) st2.parent).1
          s.length a b := by
      intro a b hab
      rcases (hchar1 a b).1 hab with h | ⟨ha, hb'⟩
      · exact (hchar2 a b).2 (Or.inl (hR a b h))
      · have hmap : ∀ u, inMerged st1.parent s.length xi
            (BKTree.search d hi t1 st1.tree) u →
            inMerged st2.parent s.length xi (BKTree.search d hi t2 st2.tree) u := by
          rintro u (h | ⟨e, he, h⟩)
          · exact Or.inl (hR u xi h)
          · exact Or.inr ⟨e, hsubset e he, hR u e.1 h⟩
        exact (hchar2 a b).2 (Or.inr ⟨hmap a ha, hmap b hb'⟩)
    have htree' : (clusterStep d s.length t1 st1 (xi, hi)).tree =
        (clusterStep d s.length t2 st2 (xi, hi)).tree := by
      simp only [clusterStep]
      rw [htree]
    have hte' : ∀ e ∈ BKTree.entriesT (clusterStep d s.length t1 st1 (xi, hi)).tree,
        e.1 ∈ s := by
      intro e he
      simp only [clusterStep] at he
      rcases (BKTree.mem_entriesT_add d xi hi st1.tree e).1 he with h | h
      · exact hte e h
      · rw [h]
        exact hxi
    exact ih (clusterStep d s.length t1 st1 (xi, hi))
      (clusterStep d s.length t2 st2 (xi, hi))
      (fun e he => hids e (List.mem_cons_of_mem _ he))
      htree' hte' hc1' hb1' hc2' hb2' hR'

/-! ### From the final parent map to the returned groups -/

/-- The grouping loop computes each id's root (compression does not change
any root along the way). -/
theorem collectRoots_fst {α : Type} [DecidableEq α] {s : List α} :
    ∀ (ids : List α) (p : α → α), ClosedIn p s → Bounded p s.length →
      (collectRoots s.length ids p).1 = ids.map (fun x => (x, p^[s.length] x)) := by
  intro ids
  induction ids with
  | nil => intro p _ _; rfl
  | cons x xs ih =>
    intro p hc hb
    obtain ⟨hfst, hc', hb', hroots⟩ := ufFind_spec hc hb x
    rw [collectRoots]
    simp only [List.map_cons]
    rw [ih (ufFind p s.length x).2 hc' hb', hfst]
    congr 1
    exact List.map_congr_left (fun y _ => by rw [hroots y])

theorem mem_firstKeys {α : Type} [DecidableEq α] :
    ∀ (l seen : List α) (y : α), y ∈ firstKeys seen l ↔ y ∈ l ∧ y ∉ seen := by
  intro l
  induction l with
  | nil => intro seen y; simp [firstKeys]
  | cons x xs ih =>
    intro seen y
    by_cases hx : x ∈ seen
    · rw [firstKeys, if_pos hx, ih]
      constructor
      · rintro ⟨h1, h2⟩
        exact ⟨List.mem_cons_of_mem _ h1, h2⟩
      · rintro ⟨h1, h2⟩
        rcases List.mem_cons.1 h1 with rfl | h1
        · exact absurd hx h2
        · exact ⟨h1, h2⟩
    · rw [firstKeys, if_neg hx]
      constructor
      · intro h
        rcases List.mem_cons.1 h with rfl | h
        · exact ⟨List.mem_cons_self _ _, hx⟩
        · obtain ⟨h1, h2⟩ := (ih (x :: seen) y).1 h
          exact ⟨List.mem_cons_of_mem _ h1,
            fun hy => h2 (List.mem_cons_of_mem _ hy)⟩
      · rintro ⟨h1, h2⟩
        rcases List.mem_cons.1 h1 with rfl | h1
        · exact List.mem_cons_self _ _
        · by_cases hyx : y = x
          · subst hyx
            exact List.mem_cons_self _ _
          · exact List.mem_cons_of_mem _ ((ih (x :: seen) y).2
              ⟨h1, fun hy => (List.mem_cons.1 hy).elim hyx h2⟩)

theorem nodup_firstKeys {α : Type} [DecidableEq α] :
    ∀ (l seen : List α), (firstKeys seen l).Nodup := by
  intro l
  induction l with
  | nil => intro seen; simp [firstKeys]
  | cons x xs ih =>
    intro seen
    by_cases hx : x ∈ seen
    · rw [firstKeys, if_pos hx]
      exact ih seen
    · rw [firstKeys, if_neg hx]
      refine List.nodup_cons.2 ⟨?_, ih (x :: seen)⟩
      intro hmem
      exact ((mem_firstKeys xs (x :: seen) x).1 hmem).2 (List.mem_cons_self _ _)

/-- Membership in the flattened non-singleton groups, for a parent map given
as an explicit root function over a duplicate-free id list. -/
theorem mem_flatten_groupsOf {α : Type} [DecidableEq α] (f : α → α) (ids : List α)
    (hnd : ids.Nodup) (x : α) :
    (x ∈ (List.filter (fun g => decide (1 < g.length))
        (groupsOf (ids.map (fun i => (i, f i))))).flatten) ↔
      (x ∈ ids ∧ ∃ y ∈ ids, y ≠ x ∧ f y = f x) := by
  have hgroup : ∀ r : α,
      (List.filter (fun pr => decide (pr.2 = r)) (ids.map (fun i => (i, f i)))).map
        Prod.fst = ids.filter (fun i => decide (f i = r)) := by
    intro r
    rw [List.filter_map]
    rw [List.map_map]
    have : (Prod.fst ∘ fun i => (i, f i)) = fun (i : α) => i := rfl
    rw [this]
    have : ((fun pr : α × α => decide (pr.2 = r)) ∘ fun i => (i, f i)) =
        fun i => decide (f i = r) := rfl
    rw [this, List.map_id']
  have hsnd : (ids.map (fun i => (i, f i))).map Prod.snd = ids.map f := by
    rw [List.map_map]
    rfl
  constructor
  · intro hx
    obtain ⟨gl, hgl, hxgl⟩ := List.mem_flatten.1 hx
    obtain ⟨hgl2, hlen⟩ := List.mem_filter.1 hgl
    obtain ⟨r, hr, rfl⟩ := List.mem_map.1 hgl2
    rw [hgroup r] at hxgl hlen
    obtain ⟨hxids, hfx⟩ := List.mem_filter.1 hxgl
    have hfxr : f x = r := of_decide_eq_true hfx
    subst hfxr
    refine ⟨hxids, ?_⟩
    -- a non-singleton duplicate-free class has a second member
    have hlen' : 1 < (ids.filter (fun i => decide (f i = f x))).length :=
      of_decide_eq_true hlen
    have hnodupF : (ids.filter (fun i => decide (f i = f x))).Nodup :=
      hnd.filter _
    obtain ⟨y1, hy1, y2, hy2, hne⟩ :
        ∃ y1 ∈ ids.filter (fun i => decide (f i = f x)),
          ∃ y2 ∈ ids.filter (fun i => decide (f i = f x)), y1 ≠ y2 := by
      rcases hl : ids.filter (fun i => decide (f i = f x)) with _ | ⟨a, _ | ⟨b, rest⟩⟩
      · rw [hl] at hlen'; simp at hlen'
      · rw [hl] at hlen'; simp at hlen'
      · rw [hl] at hnodupF
        refine ⟨a, List.mem_cons_self _ _,
          b, List.mem_cons_of_mem _ (List.mem_cons_self _ _), ?_⟩
        intro hab
        subst hab
        exact (List.nodup_cons.1 hnodupF).1 (List.mem_cons_self _ _)
    by_cases h1 : y1 = x
    · subst h1
      obtain ⟨hy2i, hy2f⟩ := List.mem_filter.1 hy2
      exact ⟨y2, hy2i, fun h => hne h.symm, of_decide_eq_true hy2f⟩
    · obtain ⟨hy1i, hy1f⟩ := List.mem_filter.1 hy1
      exact ⟨y1, hy1i, h1, of_decide_eq_true hy1f⟩
  · rintro ⟨hxids, y, hyids, hyx, hfy⟩
    apply List.mem_flatten.2
    refine ⟨ids.filter (fun i => decide (f i = f x)), ?_, ?_⟩
    · apply List.mem_filter.2
      constructor
      · apply List.mem_map.2
        refine ⟨f x, ?_, hgroup (f x)⟩
        rw [hsnd, mem_firstKeys]
        exact ⟨List.mem_map.2 ⟨x, hxids, rfl⟩, List.not_mem_nil _⟩
      · apply decide_eq_true
        -- both x and y lie in the class of x
        have hxmem : x ∈ ids.filter (fun i => decide (f i = f x)) :=
          List.mem_filter.2 ⟨hxids, decide_eq_true rfl⟩
        have hymem : y ∈ ids.filter (fun i => decide (f i = f x)) :=
          List.mem_filter.2 ⟨hyids, decide_eq_true hfy⟩
        have hsubfin : ({y, x} : Finset α) ⊆
            (ids.filter (fun i => decide (f i = f x))).toFinset := by
          intro a ha
          rcases Finset.mem_insert.1 ha with rfl | ha
          · exact List.mem_toFinset.2 hymem
          · rw [Finset.mem_singleton.1 ha]
            exact List.mem_toFinset.2 hxmem
        have hcard : ({y, x} : Finset α).card = 2 := Finset.card_pair hyx
        have h1 := Finset.card_le_card hsubfin
        have h2 := List.toFinset_card_le (ids.filter (fun i => decide (f i = f x)))
        omega
    · exact List.mem_filter.2 ⟨hxids, decide_eq_true rfl⟩

/-- The flattened non-singleton groups are, up to order, exactly the ids
having a distinct partner with the same root. -/
theorem flatten_groupsOf_perm {α : Type} [DecidableEq α] (f : α → α) (ids : List α)
    (hnd : ids.Nodup) :
    (List.filter (fun g => decide (1 < g.length))
        (groupsOf (ids.map (fun i => (i, f i))))).flatten.Perm
      (ids.filter (fun x => decide (∃ y ∈ ids, y ≠ x ∧ f y = f x))) := by
  have hgroup : ∀ r : α,
      (List.filter (fun pr => decide (pr.2 = r)) (ids.map (fun i => (i, f i)))).map
        Prod.fst = ids.filter (fun i => decide (f i = r)) := by
    intro r
    rw [List.filter_map, List.map_map]
    have h1 : (Prod.fst ∘ fun i => (i, f i)) = fun (i : α) => i := rfl
    have h2 : ((fun pr : α × α => decide (pr.2 = r)) ∘ fun i => (i, f i)) =
        fun i => decide (f i = r) := rfl
    rw [h1, h2, List.map_id']
  -- the filtered group list, re-expressed as a map over the kept keys
  have hform : List.filter (fun g => decide (1 < g.length))
      (groupsOf (ids.map (fun i => (i, f i)))) =
      ((firstKeys [] ((ids.map (fun i => (i, f i))).map Prod.snd)).filter
        (fun r => decide (1 < (ids.filter (fun i => decide (f i = r))).length))).map
        (fun r => ids.filter (fun i => decide (f i = r))) := by
    rw [groupsOf]
    have hmapped : (firstKeys [] ((ids.map (fun i => (i, f i))).map Prod.snd)).map
        (fun r => (List.filter (fun pr => decide (pr.2 = r))
          (ids.map (fun i => (i, f i)))).map Prod.fst) =
        (firstKeys [] ((ids.map (fun i => (i, f i))).map Prod.snd)).map
        (fun r => ids.filter (fun i => decide (f i = r))) :=
      List.map_congr_left (fun r _ => hgroup r)
    rw [hmapped, List.filter_map]
    rfl
  have hnodupL : (List.filter (fun g => decide (1 < g.length))
      (groupsOf (ids.map (fun i => (i, f i))))).flatten.Nodup := by
    rw [hform]
    rw [List.nodup_flatten]
    constructor
    · intro l hl
      obtain ⟨r, -, rfl⟩ := List.mem_map.1 hl
      exact hnd.filter _
    · refine List.Pairwise.map _ ?_ (((nodup_firstKeys _ _).filter _))
      intro r r' hrr' a ha ha'
      obtain ⟨-, har⟩ := List.mem_filter.1 ha
      obtain ⟨-, har'⟩ := List.mem_filter.1 ha'
      exact hrr' ((of_decide_eq_true har).symm.trans (of_decide_eq_true har'))
  have hnodupR : (ids.filter
      (fun x => decide (∃ y ∈ ids, y ≠ x ∧ f y = f x))).Nodup := hnd.filter _
  apply List.perm_of_nodup_nodup_toFinset_eq hnodupL hnodupR
  apply Finset.ext
  intro a
  rw [List.mem_toFinset, List.mem_toFinset, mem_flatten_groupsOf f ids hnd a,
    List.mem_filter]
  constructor
  · rintro ⟨h1, h2⟩
    exact ⟨h1, decide_eq_true (by simpa using h2)⟩
  · rintro ⟨h1, h2⟩
    exact ⟨h1, by simpa using of_decide_eq_true h2⟩

/-- Threshold monotonicity of the whole cluster builder: at a larger
threshold, every id grouped at the smaller threshold is still grouped, and
the total number of grouped ids does not shrink. -/
theorem fdg_core_threshold_mono {α β : Type} [DecidableEq α] (d : β → β → Nat)
    (photos : List (α × β)) {t1 t2 : Nat} (hT : t1 ≤ t2)
    (hnd : (photos.map Prod.fst).Nodup) :
    (∀ x, x ∈ (find_duplicate_groups_core d photos t1).flatten →
      x ∈ (find_duplicate_groups_core d photos t2).flatten) ∧
    (find_duplicate_groups_core d photos t1).flatten.length ≤
      (find_duplicate_groups_core d photos t2).flatten.length := by
  by_cases hlt : photos.length < 2
  · simp [find_duplicate_groups_core, if_pos hlt]
  · set s := photos.map Prod.fst with hs
    have hlen : s.length = photos.length := List.length_map _ _
    have hids : ∀ e ∈ photos, e.1 ∈ s := fun e he => List.mem_map.2 ⟨e, he, rfl⟩
    obtain ⟨-, -, hc1, hb1, hc2, hb2, hR⟩ :=
      clusterFold_refines d hT s hnd photos ⟨none, id, 0⟩ ⟨none, id, 0⟩ hids rfl
        (by intro e he; simp [BKTree.entriesT] at he)
        (fun x hx => absurd rfl hx)
        (fun x => by rw [Function.iterate_id]; exact rfl)
        (fun x hx => absurd rfl hx)
        (fun x => by rw [Function.iterate_id]; exact rfl)
        (fun a b h => h)
    have hform : ∀ (t : Nat),
        ClosedIn (photos.foldl (clusterStep d s.length t) ⟨none, id, 0⟩).parent s →
        Bounded (photos.foldl (clusterStep d s.length t) ⟨none, id, 0⟩).parent s.length →
        find_duplicate_groups_core d photos t =
          List.filter (fun g => decide (1 < g.length))
            (groupsOf (s.map (fun i =>
              (i, (photos.foldl (clusterStep d s.length t)
                ⟨none, id, 0⟩).parent^[s.length] i)))) := by
      intro t hcc hbb
      simp only [find_duplicate_groups_core, if_neg hlt, clusterAll, ← hs]
      rw [← hlen]
      rw [collectRoots_fst s _ hcc hbb]
    rw [hform t1 hc1 hb1, hform t2 hc2 hb2]
    constructor
    · intro x hx
      obtain ⟨hxs, y, hys, hyx, hroot⟩ :=
        (mem_flatten_groupsOf _ s hnd x).1 hx
      exact (mem_flatten_groupsOf _ s hnd x).2 ⟨hxs, y, hys, hyx, hR y x hroot⟩
    · have hp1 := flatten_groupsOf_perm
        (fun i => (photos.foldl (clusterStep d s.length t1) ⟨none, id, 0⟩).parent^[s.length] i)
        s hnd
      have hp2 := flatten_groupsOf_perm
        (fun i => (photos.foldl (clusterStep d s.length t2) ⟨none, id, 0⟩).parent^[s.length] i)
        s hnd
      rw [hp1.length_eq, hp2.length_eq]
      apply List.Sublist.length_le
      apply List.monotone_filter_right
      intro a ha
      apply decide_eq_true
      obtain ⟨y, hys, hyx, hroot⟩ := of_decide_eq_true ha
      exact ⟨y, hys, hyx, hR y a hroot⟩

/-! ### The range query against the brute-force scan -/

theorem mem_linearScan_iff {α β : Type} (d : β → β → Nat) (q : β) (t : Nat)
    (items : List (α × β)) (p : α × Nat) :
    p ∈ linearScan d q t items ↔
      ∃ e ∈ items, d q e.2 ≤ t ∧ p = (e.1, d q e.2) := by
  rw [linearScan, List.mem_filterMap]
  constructor
  · rintro ⟨e, he, hsome⟩
    by_cases hle : d q e.2 ≤ t
    · rw [if_pos hle] at hsome
      exact ⟨e, he, hle, (Option.some.injEq .. ▸ hsome).symm⟩
    · rw [if_neg hle] at hsome
      exact absurd hsome (Option.some_ne_none _).symm
  · rintro ⟨e, he, hle, rfl⟩
    exact ⟨e, he, by rw [if_pos hle]⟩

/-- A range query over a tree built from `items` answers exactly what the
brute-force linear scan over `items` answers, provided the distance behaves
like a metric on the query and the stored hashes. -/
theorem search_ofList_eq_linearScan {α β : Type} (d : β → β → Nat)
    (items : List (α × β)) (q : β) (t : Nat)
    (hm : MetricOn d q (items.map Prod.snd)) (p : α × Nat) :
    p ∈ BKTree.search d q t (BKTree.ofList d items) ↔ p ∈ linearScan d q t items := by
  obtain ⟨hsym, ht1, ht2⟩ := hm
  constructor
  · intro hp
    obtain ⟨r, hr, hpr⟩ := (BKTree.mem_search_iff d q t (BKTree.ofList d items) p).1 hp
    obtain ⟨e, he, hpe, hle⟩ := BKNode.searchRec_sound d q t r p hpr
    have he' : e ∈ items := by
      rw [← BKTree.mem_entriesT_ofList d items e, hr]
      exact he
    exact (mem_linearScan_iff d q t items p).2 ⟨e, he', hle, hpe⟩
  · intro hp
    obtain ⟨e, he, hle, rfl⟩ := (mem_linearScan_iff d q t items p).1 hp
    have he' : e ∈ BKTree.entriesT (BKTree.ofList d items) :=
      (BKTree.mem_entriesT_ofList d items e).2 he
    cases htr : BKTree.ofList d items with
    | none => rw [htr] at he'; simp [BKTree.entriesT] at he'
    | some r =>
      rw [htr] at he'
      have hwf : r.WF d := by
        have := BKTree.WFT_ofList d items
        rw [htr] at this
        exact this
      have hsubS : ∀ e' ∈ r.entries, e'.2 ∈ items.map Prod.snd := by
        intro e' he2
        have : e' ∈ items := by
          rw [← BKTree.mem_entriesT_ofList d items e', htr]
          exact he2
        exact List.mem_map.2 ⟨e', this, rfl⟩
      apply (BKTree.mem_search_iff d q t (some r) _).2
      refine ⟨r, rfl, ?_⟩
      exact BKNode.searchRec_complete d q t (items.map Prod.snd) hsym ht1 ht2 r hwf
        hsubS e.1 e.2 he' hle

/-! ## The persisted data model

`Photo` rows (api/models/photo.py: `image_hash` primary key, `owner`,
`perceptual_hash`, `hidden`, `in_trashcan`, `duplicate_group`, `width`,
`height`) and `DuplicateGroup` rows (api/models/duplicate_group.py) become
explicit record lists; Django querysets become filters and `update(...)`
becomes a map. -/

inductive GroupStatus where
  | pending
  | reviewed
  | dismissed
deriving DecidableEq, Repr

structure PhotoRec where
  image_hash : String
  owner : Nat
  perceptual_hash : Option String
  hidden : Bool
  in_trashcan : Bool
  duplicate_group : Option Nat
  width : Nat
  height : Nat
deriving DecidableEq, Repr

structure GroupRec where
  gid : Nat
  owner : Nat
  status : GroupStatus
  preferred_photo : Option String
deriving DecidableEq, Repr

structure Db where
  photos : List PhotoRec
  groups : List GroupRec
deriving DecidableEq, Repr

/-- The reverse foreign key `group.photos`: members of a group. -/
def groupPhotos (db : Db) (g : Nat) : List PhotoRec :=
  db.photos.filter (fun p => decide (p.duplicate_group = some g))

/-- Apply a change to every group record carrying this id. -/
def updateGroup (db : Db) (g : Nat) (f : GroupRec → GroupRec) : Db :=
  { db with groups := db.groups.map (fun gr => if gr.gid = g then f gr else gr) }

/-- A queryset `update` over photos matching a condition. -/
def updatePhotos (db : Db) (cond : PhotoRec → Bool) (f : PhotoRec → PhotoRec) : Db :=
  { db with photos := db.photos.map (fun p => if cond p then f p else p) }

/-- Status of the group with this id, if any. -/
def statusOf (db : Db) (g : Nat) : Option GroupStatus :=
  (db.groups.find? (fun gr => decide (gr.gid = g))).map GroupRec.status

/-- Preferred photo of the group with this id, if the group exists. -/
def preferredOf (db : Db) (g : Nat) : Option (Option String) :=
  (db.groups.find? (fun gr => decide (gr.gid = g))).map GroupRec.preferred_photo

/-- `resolve_duplicate_group` (api/duplicate_detection.py, lines 368-401):
look the kept photo up by hash alone (`Photo.objects.filter(image_hash=...)`
— over the whole photo table, not the group's members); raise when absent;
otherwise persist it as preferred, mark the group REVIEWED and, when
`trash_others`, move every group member other than the kept hash to the
trash, returning how many. -/
def resolve_duplicate_group (db : Db) (g : Nat) (keep_photo_hash : String)
    (trash_others : Bool) : Except String (Db × Nat) :=
  match db.photos.find? (fun p => decide (p.image_hash = keep_photo_hash)) with
  | none => .error ("Photo " ++ keep_photo_hash ++ " not found")
  | some _ =>
    let db1 := updateGroup db g (fun gr =>
      { gr with preferred_photo := some keep_photo_hash
                status := GroupStatus.reviewed })
    if trash_others then
      let others := fun p : PhotoRec =>
        decide (p.duplicate_group = some g) && decide (p.image_hash ≠ keep_photo_hash)
      .ok (updatePhotos db1 others (fun p => { p with in_trashcan := true }),
        (db1.photos.filter others).length)
    else
      .ok (db1, 0)

/-- `dismiss_duplicate_group` (lines 404-418): unconditionally set the
status to DISMISSED, then clear every member's group reference; the
`preferred_photo` reference is left as it is. -/
def dismiss_duplicate_group (db : Db) (g : Nat) : Db :=
  updatePhotos
    (updateGroup db g (fun gr => { gr with status := GroupStatus.dismissed }))
    (fun p => decide (p.duplicate_group = some g))
    (fun p => { p with duplicate_group := none })

/-- `DuplicateGroup.auto_select_preferred` (api/models/duplicate_group.py,
lines 51-62): order the members by `width * height` ascending and persist
the last one as preferred, when any member exists.  SQL leaves the relative
order of tied products unspecified; the embedding uses a stable sort, and
statements about ties are avoided. -/
def auto_select_preferred (db : Db) (g : Nat) : Db :=
  match ((groupPhotos db g).mergeSort
      (fun a b => decide (a.width * a.height ≤ b.width * b.height))).getLast? with
  | some best =>
    updateGroup db g (fun gr => { gr with preferred_photo := some best.image_hash })
  | none => db

/-- `DuplicateGroup.objects.get(id=group_id, owner=request.user)`. -/
def getGroup (db : Db) (g userId : Nat) : Option GroupRec :=
  db.groups.find? (fun gr => decide (gr.gid = g) && decide (gr.owner = userId))

/-- `DismissDuplicateGroupView.post` (api/views/duplicates.py, lines
152-161): 404 when this user has no such group; otherwise dismiss, with no
check of the current status. -/
def dismissView (db : Db) (userId g : Nat) : Except String Db :=
  match getGroup db g userId with
  | none => .error "Duplicate group not found"
  | some _ => .ok (dismiss_duplicate_group db g)

/-- `ResolveDuplicateGroupView.post` (lines 116-141): 404 when this user has
no such group; then delegate to `resolve_duplicate_group`, turning its
error into a 400 response. -/
def resolveView (db : Db) (userId g : Nat) (keep : String) (trash_others : Bool) :
    Except String (Db × Nat) :=
  match getGroup db g userId with
  | none => .error "Duplicate group not found"
  | some _ => resolve_duplicate_group db g keep trash_others

/-- `RevertDuplicateGroupView.post` (lines 172-203): 404 when this user has
no such group; only REVIEWED groups may be reverted; restore the trashed
members, reset the status to PENDING and clear the preferred photo. -/
def revertView (db : Db) (userId g : Nat) : Except String (Db × Nat) :=
  match getGroup db g userId with
  | none => .error "Duplicate group not found"
  | some gr =>
    if gr.status ≠ GroupStatus.reviewed then
      .error "Can only revert reviewed groups"
    else
      let toRestore := fun p : PhotoRec =>
        decide (p.duplicate_group = some g) && p.in_trashcan
      let db1 := updatePhotos db toRestore (fun p => { p with in_trashcan := false })
      .ok (updateGroup db1 g (fun gr2 =>
          { gr2 with status := GroupStatus.pending, preferred_photo := none }),
        (db.photos.filter toRestore).length)

/-- `DeleteDuplicateGroupView.delete` (lines 206-235): 404 when this user
has no such group; unlink every member, then remove the group record. -/
def deleteView (db : Db) (userId g : Nat) : Except String (Db × Nat) :=
  match getGroup db g userId with
  | none => .error "Duplicate group not found"
  | some _ =>
    let db1 := updatePhotos db (fun p => decide (p.duplicate_group = some g))
      (fun p => { p with duplicate_group := none })
    .ok ({ db1 with groups := db1.groups.filter (fun gr => decide (gr.gid ≠ g)) },
      (db.photos.filter (fun p => decide (p.duplicate_group = some g))).length)

/-- The spec's membership invariant: a set `preferred_photo` refers to a
current member of its group. -/
def PreferredInvariant (db : Db) (g : Nat) : Prop :=
  ∀ gr ∈ db.groups, gr.gid = g → ∀ h, gr.preferred_photo = some h →
    ∃ p ∈ db.photos, p.image_hash = h ∧ p.duplicate_group = some g

/-! ## The batch job's candidate pools
(`batch_detect_duplicates`, api/duplicate_detection.py, lines 213-365) -/

/-- Step 1 of `batch_detect_duplicates` (lines 246-260), when
`clear_existing` is set: unlink the members of this owner's PENDING groups
and delete those group records. -/
def clearPendingGroups (db : Db) (userId : Nat) : Db :=
  let isPending := fun gr : GroupRec =>
    decide (gr.owner = userId) && decide (gr.status = GroupStatus.pending)
  let pendingIds := (db.groups.filter isPending).map GroupRec.gid
  { photos := db.photos.map (fun p =>
      match p.duplicate_group with
      | some g => if g ∈ pendingIds then { p with duplicate_group := none } else p
      | none => p)
    groups := db.groups.filter (fun gr => !(isPending gr)) }

/-- The queryset of `find_duplicate_groups` (lines 112-122): the owner's
non-hidden, non-trashed photos with a fingerprint — only ungrouped ones
unless `include_existing_groups` — ordered by `image_hash`. -/
def findDuplicateGroupsPool (db : Db) (userId : Nat) (includeExisting : Bool) :
    List PhotoRec :=
  (db.photos.filter (fun p =>
      decide (p.owner = userId) && p.perceptual_hash.isSome && !p.hidden &&
        !p.in_trashcan && (includeExisting || decide (p.duplicate_group = none)))).mergeSort
    (fun a b => decide (a.image_hash ≤ b.image_hash))

/-- `find_duplicate_groups` over the record model: the pool above, fed to
the algorithmic core with the Hamming distance. -/
def find_duplicate_groups (db : Db) (userId : Nat) (threshold : Nat)
    (includeExisting : Bool) : List (List String) :=
  find_duplicate_groups_core hamming_distance
    ((findDuplicateGroupsPool db userId includeExisting).map
      (fun p => (p.image_hash, p.perceptual_hash.getD "")))
    threshold

/-- The step-3 count of `batch_detect_duplicates` (lines 305-314), stored as
`photos_to_compare` and finally reported as `photos_analyzed`: this filter
keeps photos still in a group whenever `clear_existing` was requested. -/
def batchPhotosToAnalyze (db : Db) (userId : Nat) (clearExisting : Bool) : Nat :=
  ((if clearExisting then clearPendingGroups db userId else db).photos.filter
    (fun p => decide (p.owner = userId) && p.perceptual_hash.isSome && !p.hidden &&
      !p.in_trashcan && (clearExisting || decide (p.duplicate_group = none)))).length

/-- The pool `batch_detect_duplicates` actually feeds to the clustering: it
calls `create_duplicate_groups_for_user` (line 341), which calls
`find_duplicate_groups` (line 192) with `include_existing_groups` left at
its default `False` — the reset flag is never forwarded. -/
def batchClusteringPool (db : Db) (userId : Nat) (clearExisting : Bool) :
    List PhotoRec :=
  findDuplicateGroupsPool
    (if clearExisting then clearPendingGroups db userId else db) userId false

/-! ## Sensitivity parsing at the trigger boundary
(`DetectDuplicatesView.post`, api/views/duplicates.py, lines 258-299) -/

/-- The `sensitivity_map` dictionary (lines 268-272). -/
def sensitivity_map (s : String) : Option Int :=
  if s = "strict" then some 1
  else if s = "normal" then some 3
  else if s = "loose" then some 5
  else none

def isAsciiDigit (c : Char) : Bool := decide ('0' ≤ c ∧ c ≤ '9')

/-- Digit groups of a Python decimal integer literal: single underscores may
separate digits, nothing else is accepted. -/
def pyDigitsAux (acc : Nat) : List Char → Option Nat
  | [] => some acc
  | '_' :: c :: rest =>
    if isAsciiDigit c then pyDigitsAux (acc * 10 + (c.toNat - '0'.toNat)) rest else none
  | c :: rest =>
    if isAsciiDigit c then pyDigitsAux (acc * 10 + (c.toNat - '0'.toNat)) rest else none

/-- `str.strip()` on the character list: drop whitespace at both ends. -/
def pyStrip (l : List Char) : List Char :=
  ((l.dropWhile Char.isWhitespace).reverse.dropWhile Char.isWhitespace).reverse

/-- Python's `int(str)`: optional surrounding whitespace, an optional sign,
then decimal digits (underscores allowed between digits); `none` models the
`ValueError` of anything else. -/
def py_int? (s : String) : Option Int :=
  match pyStrip s.data with
  | '+' :: c :: rest =>
    if isAsciiDigit c then (pyDigitsAux 0 (c :: rest)).map Int.ofNat else none
  | '-' :: c :: rest =>
    if isAsciiDigit c then (pyDigitsAux 0 (c :: rest)).map (fun n => -(n : Int)) else none
  | c :: rest =>
    if isAsciiDigit c then (pyDigitsAux 0 (c :: rest)).map Int.ofNat else none
  | [] => none

/-- The threshold computation of `DetectDuplicatesView.post` (lines
279-285): named levels take priority; otherwise `int(sensitivity)` clamped
into `[1, 20]` by `max(1, min(20, ...))`; a `ValueError` falls back to the
default threshold. -/
def parse_sensitivity (s : String) : Int :=
  match sensitivity_map s with
  | some t => t
  | none =>
    match py_int? s with
    | some n => max 1 (min 20 n)
    | none => (DEFAULT_HAMMING_THRESHOLD : Int)

/-- The comparison inside `hamming_distance` fails: a fingerprint fails to
parse or the bit lengths disagree. -/
def comparison_fails (h1 h2 : String) : Bool :=
  match hex_to_hash h1, hex_to_hash h2 with
  | some b1, some b2 => b1.length != b2.length
  | _, _ => true

/-! ## The claims -/

/-- C8: structural distance failure is non-fatal and maximal.
`hamming_distance` is a total function — the Python original catches every
exception of the underlying comparison — and whenever that comparison fails
(malformed hex or mismatched-length fingerprints) the result is the maximal
distance 64, which exceeds every documented threshold 1-20, so such a pair
can never count as a match and a corrupt fingerprint cannot abort a run. -/
theorem claim_C8_hamming_failure_maximal (h1 h2 : String)
    (hfail : comparison_fails h1 h2 = true) :
    hamming_distance h1 h2 = 64 ∧
      ∀ t, 1 ≤ t → t ≤ 20 → ¬ (hamming_distance h1 h2 ≤ t) := by
  have h64 : hamming_distance h1 h2 = 64 := by
    cases hh1 : hex_to_hash h1 with
    | none => simp [hamming_distance, hh1]
    | some b1 =>
      cases hh2 : hex_to_hash h2 with
      | none => simp [hamming_distance, hh1, hh2]
      | some b2 =>
        have hne : b1.length ≠ b2.length := by
          simpa [comparison_fails, hh1, hh2] using hfail
        simp [hamming_distance, hh1, hh2, hne]
  refine ⟨h64, fun t h1t h2t hle => ?_⟩
  rw [h64] at hle
  omega

/-- C8 witness: a malformed fingerprint against a valid 64-bit one. -/
theorem claim_C8_witness :
    hamming_distance "zz" "0000000000000000" = 64 ∧
      ¬ (hamming_distance "zz" "0000000000000000" ≤ 20) :=
  ⟨(claim_C8_hamming_failure_maximal "zz" "0000000000000000" (by decide)).1,
    (claim_C8_hamming_failure_maximal "zz" "0000000000000000" (by decide)).2 20
      (by omega) (by omega)⟩

/-- C10: threshold parsing at the trigger boundary.  The named levels map to
strict = 1, normal = 3, loose = 5; any other value is parsed as an integer
and clamped into [1, 20] (below 1 becomes 1, above 20 becomes 20); a value
that is neither a named level nor parseable as an integer falls back to the
default threshold 10. -/
theorem claim_C10_sensitivity_parsing :
    parse_sensitivity "strict" = 1 ∧ parse_sensitivity "normal" = 3 ∧
    parse_sensitivity "loose" = 5 ∧
    (∀ s n, sensitivity_map s = none → py_int? s = some n →
      parse_sensitivity s = max 1 (min 20 n) ∧
      (n < 1 → parse_sensitivity s = 1) ∧ (20 < n → parse_sensitivity s = 20) ∧
      1 ≤ parse_sensitivity s ∧ parse_sensitivity s ≤ 20) ∧
    (∀ s, sensitivity_map s = none → py_int? s = none → parse_sensitivity s = 10) := by
  refine ⟨rfl, rfl, rfl, ?_, ?_⟩
  · intro s n hmap hint
    have h : parse_sensitivity s = max 1 (min 20 n) := by
      simp [parse_sensitivity, hmap, hint]
    exact ⟨h, fun hn => by rw [h]; omega, fun hn => by rw [h]; omega,
      by rw [h]; omega, by rw [h]; omega⟩
  · intro s hmap hint
    simp [parse_sensitivity, hmap, hint, DEFAULT_HAMMING_THRESHOLD]

/-- C10 witness: a large custom value clamps to 20, an unparseable one
falls back to 10. -/
theorem claim_C10_witness :
    parse_sensitivity "25" = 20 ∧ parse_sensitivity "abc" = 10 := by
  constructor
  · have h := (claim_C10_sensitivity_parsing.2.2.2.1) "25" 25 (by decide) (by decide)
    exact h.2.2.1 (by omega)
  · exact (claim_C10_sensitivity_parsing.2.2.2.2) "abc" (by decide) (by decide)

/-- Member photo `"a"` of group 1. -/
def pA : PhotoRec :=
  { image_hash := "a", owner := 1, perceptual_hash := some "0000000000000000",
    hidden := false, in_trashcan := false, duplicate_group := some 1,
    width := 100, height := 100 }

/-- Member photo `"b"` of group 1. -/
def pB : PhotoRec :=
  { image_hash := "b", owner := 1, perceptual_hash := some "0000000000000003",
    hidden := false, in_trashcan := false, duplicate_group := some 1,
    width := 200, height := 100 }

/-- A photo `"x"` of another user, in no group. -/
def pX : PhotoRec :=
  { image_hash := "x", owner := 2, perceptual_hash := none,
    hidden := false, in_trashcan := false, duplicate_group := none,
    width := 50, height := 50 }

/-- Group 1 pending with members `a`, `b`, plus the foreign photo `x`. -/
def dbC2 : Db :=
  { photos := [pA, pB, pX]
    groups := [{ gid := 1, owner := 1, status := GroupStatus.pending,
                 preferred_photo := none }] }

/-- The database resolve produces on `dbC2` (extracted from the result). -/
def dbC2resolved : Db :=
  (((resolve_duplicate_group dbC2 1 "x" true).toOption).map Prod.fst).getD dbC2

/-- C2 counterexample: `"x"` exists but is not a member of group 1 and
belongs to another user, so the claim demands a rejection with no state
change; instead `resolve_duplicate_group` succeeds, marks the group
REVIEWED, persists the foreign photo as preferred and trashes both actual
members (returned count 2) — the state changes. -/
theorem claim_C2_counterexample :
    (∀ p ∈ dbC2.photos, p.image_hash = "x" → p.duplicate_group ≠ some 1 ∧ p.owner ≠ 1) ∧
    (resolve_duplicate_group dbC2 1 "x" true).toOption.map Prod.snd = some 2 ∧
    statusOf dbC2resolved 1 = some GroupStatus.reviewed ∧
    preferredOf dbC2resolved 1 = some (some "x") ∧
    (∀ p ∈ dbC2resolved.photos, p.image_hash ≠ "x" → p.in_trashcan = true) ∧
    dbC2resolved ≠ dbC2 := by decide

/-- C2 amended: the only validation `resolve_duplicate_group` performs is
that a photo with the given hash exists somewhere in the photo table —
membership of the group and ownership are not checked.  When no such photo
exists the call is rejected with the `Photo ... not found` error, raised
before any write, so nothing changes; otherwise it proceeds even for a
non-member. -/
theorem claim_C2_amended_validation (db : Db) (g : Nat) (keep : String)
    (trash : Bool) :
    resolve_duplicate_group db g keep trash =
        Except.error ("Photo " ++ keep ++ " not found") ↔
      ∀ p ∈ db.photos, p.image_hash ≠ keep := by
  cases hfind : db.photos.find? (fun p => decide (p.image_hash = keep)) with
  | none =>
    have hnone : ∀ p ∈ db.photos, p.image_hash ≠ keep := by
      intro p hp
      have := List.find?_eq_none.1 hfind p hp
      simpa using this
    simp only [resolve_duplicate_group, hfind]
    exact iff_of_true trivial hnone
  | some p0 =>
    have hmem : p0 ∈ db.photos := List.mem_of_find?_eq_some hfind
    have hhash : p0.image_hash = keep := by
      have := List.find?_some hfind
      simpa using this
    simp only [resolve_duplicate_group, hfind]
    apply iff_of_false
    · by_cases htrash : trash <;> simp [htrash]
    · intro hall
      exact hall p0 hmem hhash

/-- C2 amended witness: a hash absent from the table is rejected. -/
theorem claim_C2_amended_witness :
    resolve_duplicate_group dbC2 1 "nope" true =
      Except.error ("Photo " ++ "nope" ++ " not found") :=
  (claim_C2_amended_validation dbC2 1 "nope" true).2 (by decide)

/-- Group 1, already REVIEWED, with preferred photo `"a"`. -/
def dbC5 : Db :=
  { photos := [pA, pB]
    groups := [{ gid := 1, owner := 1, status := GroupStatus.reviewed,
                 preferred_photo := some "a" }] }

/-- C5 counterexample: the claim says dismiss is only valid from PENDING and
a REVIEWED group is never transitioned to DISMISSED; yet the dismiss view
accepts a REVIEWED group and performs exactly that transition. -/
theorem claim_C5_counterexample :
    statusOf dbC5 1 = some GroupStatus.reviewed ∧
    (dismissView dbC5 1 1).toOption = some (dismiss_duplicate_group dbC5 1) ∧
    statusOf (dismiss_duplicate_group dbC5 1) 1 = some GroupStatus.dismissed := by
  decide

/-- C5 amended: neither the dismiss view nor resolve checks the current
status — dismiss sets DISMISSED from any status and resolve sets REVIEWED
from any status — while revert alone is guarded: it is rejected unless the
group is REVIEWED, and on success resets it to PENDING. -/
theorem claim_C5_amended_transitions (db : Db) (userId g : Nat) :
    (∀ gr, getGroup db g userId = some gr →
      dismissView db userId g = Except.ok (dismiss_duplicate_group db g) ∧
      ∀ gr2 ∈ (dismiss_duplicate_group db g).groups, gr2.gid = g →
        gr2.status = GroupStatus.dismissed) ∧
    (∀ gr db2 n, getGroup db g userId = some gr →
      resolveView db userId g "h" true = Except.ok (db2, n) →
      ∀ gr2 ∈ db2.groups, gr2.gid = g → gr2.status = GroupStatus.reviewed) ∧
    (∀ gr, getGroup db g userId = some gr → gr.status ≠ GroupStatus.reviewed →
      revertView db userId g = Except.error "Can only revert reviewed groups") ∧
    (∀ gr db2 n, getGroup db g userId = some gr →
      revertView db userId g = Except.ok (db2, n) →
      gr.status = GroupStatus.reviewed ∧
      ∀ gr2 ∈ db2.groups, gr2.gid = g → gr2.status = GroupStatus.pending) := by
  have hpost : ∀ (db0 : Db) (f : GroupRec → GroupRec),
      (∀ gr0, (f gr0).gid = gr0.gid) →
      ∀ gr2 ∈ (updateGroup db0 g f).groups, gr2.gid = g →
        ∃ gr0 ∈ db0.groups, gr0.gid = g ∧ gr2 = f gr0 := by
    intro db0 f hfid gr2 hgr2 hgid
    simp only [updateGroup] at hgr2
    obtain ⟨gr0, hgr0, rfl⟩ := List.mem_map.1 hgr2
    by_cases h0 : gr0.gid = g
    · rw [if_pos h0] at hgid ⊢
      exact ⟨gr0, hgr0, h0, rfl⟩
    · rw [if_neg h0] at hgid
      exact absurd hgid h0
  refine ⟨?_, ?_, ?_, ?_⟩
  · intro gr hgr
    constructor
    · simp [dismissView, hgr]
    · intro gr2 hgr2 hgid
      simp only [dismiss_duplicate_group, updatePhotos] at hgr2
      obtain ⟨gr0, -, h0, rfl⟩ := hpost db
        (fun gr0 => { gr0 with status := GroupStatus.dismissed })
        (fun _ => rfl) gr2 hgr2 hgid
      rfl
  · intro gr db2 n hgr hok gr2 hgr2 hgid
    simp only [resolveView, hgr] at hok
    cases hfind : db.photos.find? (fun p => decide (p.image_hash = "h")) with
    | none =>
      rw [resolve_duplicate_group, hfind] at hok
      exact absurd hok (by simp)
    | some p0 =>
      rw [resolve_duplicate_group, hfind] at hok
      simp only [if_true, Except.ok.injEq, Prod.mk.injEq] at hok
      obtain ⟨hdb2, -⟩ := hok
      subst hdb2
      simp only [updatePhotos] at hgr2
      obtain ⟨gr0, -, h0, rfl⟩ := hpost db
        (fun gr0 => { gr0 with preferred_photo := some "h",
                               status := GroupStatus.reviewed })
        (fun _ => rfl) gr2 hgr2 hgid
      rfl
  · intro gr hgr hst
    simp only [revertView, hgr]
    rw [if_pos hst]
  · intro gr db2 n hgr hok
    simp only [revertView, hgr] at hok
    by_cases hst : gr.status ≠ GroupStatus.reviewed
    · rw [if_pos hst] at hok
      exact absurd hok (by simp)
    · push_neg at hst
      refine ⟨hst, ?_⟩
      rw [if_neg (by simp [hst])] at hok
      simp only [Except.ok.injEq, Prod.mk.injEq] at hok
      obtain ⟨hdb2, -⟩ := hok
      subst hdb2
      intro gr2 hgr2 hgid
      obtain ⟨gr0, -, h0, rfl⟩ := hpost _
        (fun gr0 => { gr0 with status := GroupStatus.pending,
                               preferred_photo := none })
        (fun _ => rfl) gr2 hgr2 hgid
      rfl

/-- C5 amended witness: on the REVIEWED group of `dbC5`, dismiss succeeds
with no status check. -/
theorem claim_C5_amended_witness :
    dismissView dbC5 1 1 = Except.ok (dismiss_duplicate_group dbC5 1) :=
  ((claim_C5_amended_transitions dbC5 1 1).1
    { gid := 1, owner := 1, status := GroupStatus.reviewed,
      preferred_photo := some "a" } (by decide)).1

/-- Group 1 pending with preferred photo `"a"` and members `a`, `b`. -/
def dbC4 : Db :=
  { photos := [pA, pB]
    groups := [{ gid := 1, owner := 1, status := GroupStatus.pending,
                 preferred_photo := some "a" }] }

/-- C4 counterexample: the membership invariant holds before the dismiss —
preferred photo `"a"` is a member of group 1 — yet `dismiss_duplicate_group`
clears every member while leaving `preferred_photo` set, so afterwards the
preferred photo refers to a photo that is no longer a member: the claimed
preservation by every operation fails. -/
theorem claim_C4_counterexample :
    PreferredInvariant dbC4 1 ∧
    preferredOf (dismiss_duplicate_group dbC4 1) 1 = some (some "a") ∧
    groupPhotos (dismiss_duplicate_group dbC4 1) 1 = [] ∧
    ¬ PreferredInvariant (dismiss_duplicate_group dbC4 1) 1 := by
  refine ⟨?_, by decide, by decide, ?_⟩
  · intro gr hgr hgid h hpref
    simp only [dbC4, List.mem_singleton] at hgr
    subst hgr
    obtain rfl : "a" = h := by injection hpref
    exact ⟨pA, by simp [dbC4, pA], rfl, rfl⟩
  · intro hinv
    have hmem : (GroupRec.mk 1 1 GroupStatus.dismissed (some "a")) ∈
        (dismiss_duplicate_group dbC4 1).groups := by decide
    obtain ⟨p, hp, -, h2⟩ := hinv _ hmem rfl "a" rfl
    have hnone : ∀ q ∈ (dismiss_duplicate_group dbC4 1).photos,
        q.duplicate_group ≠ some 1 := by decide
    exact hnone p hp h2

/-- C4 amended: the auto-selection step of group creation and the revert
operation do respect the membership invariant — auto-selection persists an
actual member and revert clears the reference.  (Dismiss and resolve do
not, as the counterexample shows: dismiss un-groups every member while
keeping `preferred_photo`, and resolve accepts a non-member.) -/
theorem claim_C4_amended_preservation (db : Db) (g : Nat)
    (hinv : PreferredInvariant db g) :
    PreferredInvariant (auto_select_preferred db g) g ∧
    ∀ userId db2 n, revertView db userId g = Except.ok (db2, n) →
      PreferredInvariant db2 g := by
  constructor
  · cases hlast : ((groupPhotos db g).mergeSort
        (fun a b => decide (a.width * a.height ≤ b.width * b.height))).getLast? with
    | none =>
      simp only [auto_select_preferred, hlast]
      exact hinv
    | some best =>
      have hbestmem : best ∈ (groupPhotos db g).mergeSort
          (fun a b => decide (a.width * a.height ≤ b.width * b.height)) := by
        cases hl : (groupPhotos db g).mergeSort
            (fun a b => decide (a.width * a.height ≤ b.width * b.height)) with
        | nil => rw [hl] at hlast; simp at hlast
        | cons c rest =>
          rw [hl] at hlast
          rw [List.getLast?_eq_getLast _ (by simp)] at hlast
          obtain rfl : (c :: rest).getLast (by simp) = best := by injection hlast
          exact List.getLast_mem _
      have hbest : best ∈ groupPhotos db g :=
        (List.mergeSort_perm (groupPhotos db g) _).mem_iff.1 hbestmem
      obtain ⟨hbestp, hbestg⟩ := List.mem_filter.1 hbest
      have hbestg' : best.duplicate_group = some g := of_decide_eq_true hbestg
      simp only [auto_select_preferred, hlast]
      intro gr2 hgr2 hgid h hpref
      simp only [updateGroup] at hgr2
      obtain ⟨gr0, -, rfl⟩ := List.mem_map.1 hgr2
      by_cases h0 : gr0.gid = g
      · rw [if_pos h0] at hpref
        obtain rfl : best.image_hash = h := by injection hpref
        exact ⟨best, hbestp, rfl, hbestg'⟩
      · rw [if_neg h0] at hgid
        exact absurd hgid h0
  · intro userId db2 n hok
    cases hgr : getGroup db g userId with
    | none =>
      simp only [revertView, hgr] at hok
      exact absurd hok (by simp)
    | some gr =>
      simp only [revertView, hgr] at hok
      by_cases hst : gr.status ≠ GroupStatus.reviewed
      · rw [if_pos hst] at hok
        exact absurd hok (by simp)
      · rw [if_neg hst] at hok
        simp only [Except.ok.injEq, Prod.mk.injEq] at hok
        obtain ⟨hdb2, -⟩ := hok
        subst hdb2
        intro gr2 hgr2 hgid h hpref
        simp only [updateGroup] at hgr2
        obtain ⟨gr0, -, rfl⟩ := List.mem_map.1 hgr2
        by_cases h0 : gr0.gid = g
        · rw [if_pos h0] at hpref
          exact absurd hpref (by simp)
        · rw [if_neg h0] at hgid
          exact absurd hgid h0

/-- C4 amended witness: after auto-selection on `dbC4`, the preferred photo
is again a member (the invariant holds). -/
theorem claim_C4_amended_witness :
    PreferredInvariant (auto_select_preferred dbC4 1) 1 :=
  (claim_C4_amended_preservation dbC4 1 (by
    intro gr hgr hgid h hpref
    simp only [dbC4, List.mem_singleton] at hgr
    subst hgr
    obtain rfl : "a" = h := by injection hpref
    exact ⟨pA, by simp [dbC4, pA], rfl, rfl⟩)).1

/-- User 1's two comparable photos still sit in a REVIEWED group. -/
def dbC3 : Db :=
  { photos := [pA, pB]
    groups := [{ gid := 1, owner := 1, status := GroupStatus.reviewed,
                 preferred_photo := some "a" }] }

/-- C3 counterexample: with the reset requested, step 1 clears only PENDING
groups, so both photos stay in their REVIEWED group; the step-3 count
(`photos_analyzed`) counts both anyway, but the pool actually fed to the
clustering is empty — photos still in a group after the reset are *not*
included in the comparison pool, contrary to the claim. -/
theorem claim_C3_counterexample :
    ((clearPendingGroups dbC3 1).photos.map PhotoRec.duplicate_group) =
      [some 1, some 1] ∧
    batchPhotosToAnalyze dbC3 1 true = 2 ∧
    batchClusteringPool dbC3 1 true = [] := by
  refine ⟨by decide, by decide, ?_⟩
  show findDuplicateGroupsPool (if true then clearPendingGroups dbC3 1 else dbC3) 1
      false = []
  rw [findDuplicateGroupsPool,
    show ((if true then clearPendingGroups dbC3 1 else dbC3).photos.filter
      (fun p => decide (p.owner = 1) && p.perceptual_hash.isSome && !p.hidden &&
        !p.in_trashcan && (false || decide (p.duplicate_group = none)))) = []
      from by decide]
  exact List.mergeSort_nil

/-- C3 amended: the pool fed to the clustering step is the owner's
non-hidden, non-trashed photos with a fingerprint that are in *no* group
after step 1, whatever `clear_existing` was: the reset only frees members
of PENDING groups, and `photos_analyzed` merely over-counts the photos left
in surviving groups. -/
theorem claim_C3_amended_pool (db : Db) (userId : Nat) (clearExisting : Bool)
    (p : PhotoRec) :
    p ∈ batchClusteringPool db userId clearExisting ↔
      p ∈ (if clearExisting then clearPendingGroups db userId else db).photos ∧
        p.owner = userId ∧ p.perceptual_hash.isSome = true ∧ p.hidden = false ∧
        p.in_trashcan = false ∧ p.duplicate_group = none := by
  rw [batchClusteringPool, findDuplicateGroupsPool,
    (List.mergeSort_perm _ _).mem_iff, List.mem_filter]
  simp only [Bool.and_eq_true, decide_eq_true_eq, Bool.not_eq_true', Bool.false_or]
  tauto

/-- C3 amended witness: an ungrouped fingerprinted photo enters the pool. -/
theorem claim_C3_amended_witness :
    ({ image_hash := "y", owner := 1, perceptual_hash := some "0000000000000000",
       hidden := false, in_trashcan := false, duplicate_group := none,
       width := 10, height := 10 } : PhotoRec) ∈
      batchClusteringPool
        { photos := [{ image_hash := "y", owner := 1,
                       perceptual_hash := some "0000000000000000",
                       hidden := false, in_trashcan := false,
                       duplicate_group := none, width := 10, height := 10 }]
          groups := [] } 1 false :=
  (claim_C3_amended_pool _ 1 false _).mpr (by decide)

/-- In a non-empty pairwise-ordered list, the last element is related to
every other element. -/
theorem pairwise_getLast {γ : Type} {r : γ → γ → Prop} :
    ∀ (l : List γ) (hl : l ≠ []), l.Pairwise r →
      ∀ a ∈ l, a = l.getLast hl ∨ r a (l.getLast hl) := by
  intro l
  induction l with
  | nil => intro hl; exact absurd rfl hl
  | cons x rest ih =>
    intro hl hpw a ha
    cases rest with
    | nil =>
      simp only [List.mem_singleton] at ha
      subst ha
      left
      rfl
    | cons y rest2 =>
      have hne2 : y :: rest2 ≠ [] := by simp
      rw [List.getLast_cons hne2]
      obtain ⟨hx, hpw2⟩ := List.pairwise_cons.1 hpw
      rcases List.mem_cons.1 ha with rfl | ha2
      · right
        exact hx _ (List.getLast_mem hne2)
      · exact ih hne2 hpw2 a ha2

/-- C9: for a group whose members have pairwise-distinct `width * height`
products, the automatic preferred-photo selection chooses, and persists as
the group's `preferred_photo`, exactly the member with the maximum
product. -/
theorem claim_C9_preferred_max_product (db : Db) (g : Nat)
    (hne : groupPhotos db g ≠ [])
    (hdistinct : ∀ p1 ∈ groupPhotos db g, ∀ p2 ∈ groupPhotos db g,
      p1.width * p1.height = p2.width * p2.height → p1 = p2) :
    ∃ best ∈ groupPhotos db g,
      (∀ m ∈ groupPhotos db g, m ≠ best →
        m.width * m.height < best.width * best.height) ∧
      auto_select_preferred db g =
        updateGroup db g
          (fun gr => { gr with preferred_photo := some best.image_hash }) := by
  have hperm := List.mergeSort_perm (groupPhotos db g)
    (fun a b => decide (a.width * a.height ≤ b.width * b.height))
  have hsne : (groupPhotos db g).mergeSort
      (fun a b => decide (a.width * a.height ≤ b.width * b.height)) ≠ [] := by
    intro h
    rw [h] at hperm
    exact hne hperm.nil_eq.symm
  have hsort : ((groupPhotos db g).mergeSort
      (fun a b => decide (a.width * a.height ≤ b.width * b.height))).Pairwise
      (fun a b => decide (a.width * a.height ≤ b.width * b.height) = true) :=
    List.sorted_mergeSort
      (by intro a b c h1 h2; simp only [decide_eq_true_eq] at h1 h2 ⊢; omega)
      (by intro a b; simp only [Bool.or_eq_true, decide_eq_true_eq]; omega)
      (groupPhotos db g)
  refine ⟨((groupPhotos db g).mergeSort
      (fun a b => decide (a.width * a.height ≤ b.width * b.height))).getLast hsne,
    hperm.mem_iff.1 (List.getLast_mem hsne), ?_, ?_⟩
  · intro m hm hmne
    have hmem : m ∈ (groupPhotos db g).mergeSort
        (fun a b => decide (a.width * a.height ≤ b.width * b.height)) :=
      hperm.mem_iff.2 hm
    rcases pairwise_getLast _ hsne hsort m hmem with h | h
    · exact absurd h hmne
    · have hle : m.width * m.height ≤
          (((groupPhotos db g).mergeSort
            (fun a b => decide (a.width * a.height ≤ b.width * b.height))).getLast
              hsne).width *
          (((groupPhotos db g).mergeSort
            (fun a b => decide (a.width * a.height ≤ b.width * b.height))).getLast
              hsne).height := of_decide_eq_true h
      rcases Nat.lt_or_ge (m.width * m.height)
        ((((groupPhotos db g).mergeSort
          (fun a b => decide (a.width * a.height ≤ b.width * b.height))).getLast
            hsne).width *
         (((groupPhotos db g).mergeSort
          (fun a b => decide (a.width * a.height ≤ b.width * b.height))).getLast
            hsne).height) with hlt | hge
      · exact hlt
      · have heq : m.width * m.height = _ := Nat.le_antisymm hle hge
        exact absurd (hdistinct m hm _ (hperm.mem_iff.1 (List.getLast_mem hsne)) heq)
          hmne
  · simp only [auto_select_preferred]
    rw [List.getLast?_eq_getLast _ hsne]

/-- C9 witness: on `dbC4` (products 10000 and 20000) the selection picks and
persists the larger member. -/
theorem claim_C9_witness :
    ∃ best ∈ groupPhotos dbC4 1,
      (∀ m ∈ groupPhotos dbC4 1, m ≠ best →
        m.width * m.height < best.width * best.height) ∧
      auto_select_preferred dbC4 1 =
        updateGroup dbC4 1
          (fun gr => { gr with preferred_photo := some best.image_hash }) :=
  claim_C9_preferred_max_product dbC4 1 (by decide) (by decide)

/-- The distance function the claim stipulates: A-B = 5, B-C = 5, A-C = 20
on three fingerprints 0, 1, 2 (symmetric, zero on equal).  No Hamming
distance can take these values — 20 > 5 + 5 breaks the triangle
inequality — so they are only realizable through the `BKTree`'s
`distance_func` parameter. -/
def dC6 (a b : Nat) : Nat :=
  if a = b then 0
  else if (a = 0 ∧ b = 1) ∨ (a = 1 ∧ b = 0) then 5
  else if (a = 1 ∧ b = 2) ∨ (a = 2 ∧ b = 1) then 5
  else 20

/-- C6 counterexample: on a pool A, B, C with the stipulated pairwise
distances 5, 5, 20 and threshold 10, the cluster builder does *not* produce
one group {A, B, C}: the non-metric distances defeat the BK-tree's
triangle-inequality pruning (the subtree holding B is pruned for the query
C since |20 - 5| > 10), the B-C match is never reported, and the run yields
the single group {A, B} with C left ungrouped. -/
theorem claim_C6_counterexample :
    dC6 0 1 = 5 ∧ dC6 1 0 = 5 ∧ dC6 1 2 = 5 ∧ dC6 2 1 = 5 ∧
    dC6 0 2 = 20 ∧ dC6 2 0 = 20 ∧ dC6 0 0 = 0 ∧ dC6 1 1 = 0 ∧ dC6 2 2 = 0 ∧
    find_duplicate_groups_core dC6 [("A", 0), ("B", 1), ("C", 2)] 10 =
      [["A", "B"]] ∧
    "C" ∉ (find_duplicate_groups_core dC6 [("A", 0), ("B", 1), ("C", 2)] 10).flatten := by
  decide

/-- C6 amended: with pairwise distances a Hamming distance can actually
take — A-B = 6, B-C = 6, A-C = 12, threshold 10 — the transitive clustering
the claim describes does occur: a single group {A, B, C} even though the
A-C distance exceeds the threshold. -/
theorem claim_C6_amended_transitivity :
    hamming_distance "0000000000000000" "0000000000000fc0" = 6 ∧
    hamming_distance "0000000000000fc0" "0000000000000fff" = 6 ∧
    hamming_distance "0000000000000000" "0000000000000fff" = 12 ∧
    ¬ (hamming_distance "0000000000000000" "0000000000000fff" ≤ 10) ∧
    find_duplicate_groups_core hamming_distance
      [("A", "0000000000000000"), ("B", "0000000000000fc0"),
       ("C", "0000000000000fff")] 10 = [["A", "B", "C"]] := by
  decide

/-- C7: threshold monotonicity of the cluster builder.  For a fixed pool of
(id, fingerprint) pairs processed in the same deterministic order, with
`t1 ≤ t2` every photo placed into some returned group at threshold `t1` is
also placed into some group at `t2`, and the number of photos belonging to
a group never decreases.  (This needs no metric assumption: the range-query
result set itself grows with the threshold.) -/
theorem claim_C7_threshold_monotonicity (photos : List (String × String))
    (t1 t2 : Nat) (hT : t1 ≤ t2) (hnd : (photos.map Prod.fst).Nodup) :
    (∀ x, x ∈ (find_duplicate_groups_core hamming_distance photos t1).flatten →
      x ∈ (find_duplicate_groups_core hamming_distance photos t2).flatten) ∧
    (find_duplicate_groups_core hamming_distance photos t1).flatten.length ≤
      (find_duplicate_groups_core hamming_distance photos t2).flatten.length :=
  fdg_core_threshold_mono hamming_distance photos hT hnd

/-- C7 witness: two identical fingerprints are grouped already at
threshold 0, hence also at threshold 5. -/
theorem claim_C7_witness :
    "a" ∈ (find_duplicate_groups_core hamming_distance
      [("a", "00"), ("b", "00")] 5).flatten :=
  (claim_C7_threshold_monotonicity [("a", "00"), ("b", "00")] 0 5 (by omega)
    (by decide)).1 "a" (by decide)

/-- C1: BK-tree range-query completeness.  For any items inserted in any
order (`items2` is any permutation of `items`) and any query and threshold,
`search` returns exactly the pairs the brute-force linear scan over the
items returns — the same id set, each paired with its distance, with no
false negatives from pruning — provided the distance is symmetric and
satisfies the triangle inequality on the query and the stored fingerprints,
as Hamming distance is. -/
theorem claim_C1_range_query_complete {α β : Type} (d : β → β → Nat)
    (items items2 : List (α × β)) (q : β) (t : Nat)
    (hperm : items.Perm items2)
    (hm : MetricOn d q (items.map Prod.snd)) (p : α × Nat) :
    p ∈ BKTree.search d q t (BKTree.ofList d items2) ↔ p ∈ linearScan d q t items := by
  obtain ⟨h1, h2, h3⟩ := hm
  have hmem2 : ∀ a ∈ items2.map Prod.snd, a ∈ items.map Prod.snd := fun a ha =>
    ((hperm.map Prod.snd).mem_iff).2 ha
  have hm2 : MetricOn d q (items2.map Prod.snd) :=
    ⟨fun a ha => h1 a (hmem2 a ha),
     fun a ha b hb => h2 a (hmem2 a ha) b (hmem2 b hb),
     fun a ha b hb => h3 a (hmem2 a ha) b (hmem2 b hb)⟩
  rw [search_ofList_eq_linearScan d items2 q t hm2 p,
    mem_linearScan_iff, mem_linearScan_iff]
  constructor
  · rintro ⟨e, he, hle, rfl⟩
    exact ⟨e, hperm.mem_iff.2 he, hle, rfl⟩
  · rintro ⟨e, he, hle, rfl⟩
    exact ⟨e, hperm.mem_iff.1 he, hle, rfl⟩

/-- C1 witness: three 64-bit fingerprints, inserted in reversed order,
answer a Hamming range query exactly as the brute-force scan does. -/
theorem claim_C1_witness :
    ("B", 6) ∈ BKTree.search hamming_distance "0000000000000000" 7
      (BKTree.ofList hamming_distance
        [("C", "0000000000000fff"), ("B", "0000000000000fc0"),
         ("A", "0000000000000000")]) :=
  (claim_C1_range_query_complete hamming_distance
    [("A", "0000000000000000"), ("B", "0000000000000fc0"),
     ("C", "0000000000000fff")]
    [("C", "0000000000000fff"), ("B", "0000000000000fc0"),
     ("A", "0000000000000000")]
    "0000000000000000" 7 (by decide) (by decide) ("B", 6)).2 (by decide)

end LibrePhotos
